import Mathlib

/-!
# my_copy: a system-call level model

The program `src/my_copy.c` is a straight-line sequence of POSIX calls
(`open`, `close`, `read`, `write`).  It is embedded here as pure functions over
an explicit `World`:

* the world holds, for every kind of call, the *results the kernel is going to
  give*: the results of the successive `open` calls, and for each descriptor the
  results of the successive `read` and `write` calls on it;
* every function returns a `Run`: its C return value, the list of system calls
  it issued (with arguments and results, in order) and the world that is left.

A call whose scripted results are used up never returns: the run is *blocked*,
its return value is `none`.  A run with a return value `some r` is a terminating
run of the C code that received exactly the scripted results.

`ssize_t` values are modelled by `Int`: with results a kernel can give (a
`read` or `write` returns at most the length requested) every quantity is
bounded by the size of a buffer or of a message, so no arithmetic wraps.

The properties are stated on the calls of a run.  Where a property speaks of
the content of files, the calls are replayed on a model of the file system
(`FS`, `replay`), which says which results a file system can give.
-/

namespace MyCopy

/-! ## Data model -/

/-- A `char` of the C program. -/
abbrev Byte := Char

/-- `#define BUF_SIZE 8192`. -/
def BUF_SIZE : Nat := 8192

def STDIN_FILENO : Int := 0
def STDOUT_FILENO : Int := 1
def STDERR_FILENO : Int := 2

/-- The two flag combinations the program passes to `open`:
`O_RDONLY` and `O_WRONLY | O_CREAT | O_TRUNC` (with mode `0644`). -/
inductive OpenFlags
  | O_RDONLY
  | O_WRONLY_CREAT_TRUNC
  deriving DecidableEq, Repr

/-- What a `read` call gives back: an error (`-1`), or the bytes it stored in
the buffer (their number is the return value, `0` at end of input). -/
inductive ReadRes
  | fail
  | data (bs : List Byte)
  deriving DecidableEq, Repr

/-- The `ssize_t` returned by the `read`. -/
def ReadRes.ret : ReadRes → Int
  | .fail => -1
  | .data bs => (bs.length : Int)

/-- The bytes the `read` stored in the buffer. -/
def ReadRes.bytes : ReadRes → List Byte
  | .fail => []
  | .data bs => bs

/-- A system call issued by the program, with its arguments and its result.
For `write` the payload is the `count` bytes found at the pointer passed. -/
inductive Event
  | open_ (path : String) (flags : OpenFlags) (ret : Int)
  | close (fd : Int)
  | read (fd : Int) (count : Nat) (res : ReadRes)
  | write (fd : Int) (payload : List Byte) (ret : Int)
  deriving DecidableEq, Repr

/-- The results the kernel is going to give. -/
structure World where
  /-- results of the successive `open` calls -/
  opens : List Int
  /-- results of the successive `read` calls on each descriptor -/
  reads : Int → List ReadRes
  /-- results of the successive `write` calls on each descriptor -/
  writes : Int → List Int

/-- Outcome of running a piece of the program: return value (`none` when a call
never returned), calls issued, remaining world. -/
structure Run (α : Type) where
  ret : Option α
  trace : List Event
  world : World

/-- A `return v` that issues no call. -/
def Run.done {α : Type} (v : α) (w : World) : Run α :=
  { ret := some v, trace := [], world := w }

/-- Sequencing: run `k` on the value and world left by `r`, unless `r` is
blocked. -/
def Run.andThen {α β : Type} (r : Run α) (k : α → World → Run β) : Run β :=
  match r.ret with
  | none => { ret := none, trace := r.trace, world := r.world }
  | some a =>
    let s := k a r.world
    { ret := s.ret, trace := r.trace ++ s.trace, world := s.world }

/-- `open(path, flags)`. -/
def sys_open (path : String) (flags : OpenFlags) (w : World) : Run Int :=
  match w.opens with
  | [] => { ret := none, trace := [], world := w }
  | fd :: rest =>
    { ret := some fd, trace := [Event.open_ path flags fd],
      world := { w with opens := rest } }

/-- `close(fd)`; the program ignores its result. -/
def sys_close (fd : Int) (w : World) : Run Unit :=
  { ret := some (), trace := [Event.close fd], world := w }

/-! ## The program -/

/-- The loop of `write_all` (lines 15-22), from the current value of `written`,
on the results `ws` the successive `write` calls on `fd` are going to give.
Returns the return value, the calls issued and the unused results. -/
def write_all_loop (fd : Int) (buf : List Byte) (count : Int) :
    Int → List Int → Option Int × List Event × List Int
  | written, ws =>
    if written < count then
      match ws with
      | [] => (none, [], [])
      | r :: rest =>
        let ev := Event.write fd ((buf.drop written.toNat).take (count - written).toNat) r
        if r < 0 then
          (some (-1), [ev], rest)
        else
          let out := write_all_loop fd buf count (written + r) rest
          (out.1, ev :: out.2.1, out.2.2)
    else
      (some 0, [], ws)

/-- `write_all(fd, buf, count)` (lines 12-23). -/
def write_all (fd : Int) (buf : List Byte) (count : Int) (w : World) : Run Int :=
  let out := write_all_loop fd buf count 0 (w.writes fd)
  { ret := out.1, trace := out.2.1,
    world := { w with writes := Function.update w.writes fd out.2.2 } }

/-- `write_str(fd, msg)` (lines 29-31): `msg` is the bytes of the string before
its terminating zero, `strlen(msg)` their number; the result of `write_all` is
dropped. -/
def write_str (fd : Int) (msg : List Byte) (w : World) : Run Unit :=
  (write_all fd msg (msg.length : Int) w).andThen fun _ w1 => Run.done () w1

/-- `file_exists(path)` (lines 34-41). -/
def file_exists (path : String) (w : World) : Run Int :=
  (sys_open path OpenFlags.O_RDONLY w).andThen fun fd w1 =>
    if fd ≥ 0 then
      (sys_close fd w1).andThen fun _ w2 => Run.done 1 w2
    else
      Run.done 0 w1

/-- The prompt of lines 56-58. -/
def prompt_msg : List Byte :=
  ("The destination file already exists.\n" ++
    "Overwriting it will erase its contents.\n" ++
    "Do you want to continue? (y/n)\n").toList

/-- The message of line 72. -/
def invalid_msg : List Byte := "Invalid input. Please enter 'y' or 'n'.\n".toList

/-- The `while (1)` loop of `ask_overwrite` (lines 54-73), on the results `rs`
the successive `read` calls on standard input are going to give. -/
def ask_overwrite_loop : List ReadRes → World → Run Int
  | [], w =>
    (write_str STDOUT_FILENO prompt_msg w).andThen fun _ w1 =>
      { ret := none, trace := [], world := w1 }
  | r :: rs, w =>
    (write_str STDOUT_FILENO prompt_msg w).andThen fun _ w1 =>
      let w2 : World := { w1 with reads := Function.update w1.reads STDIN_FILENO rs }
      let rd : Run Int :=
        { ret := some r.ret, trace := [Event.read STDIN_FILENO 1 r], world := w2 }
      rd.andThen fun n w3 =>
        if n ≤ 0 then
          Run.done 0 w3
        else
          let c := r.bytes.headD (Char.ofNat 0)
          if c = 'y' ∨ c = 'Y' then
            Run.done 1 w3
          else if c = 'n' ∨ c = 'N' then
            Run.done 0 w3
          else
            (write_str STDOUT_FILENO invalid_msg w3).andThen fun _ w4 =>
              ask_overwrite_loop rs w4

/-- `ask_overwrite(dst)` (lines 50-74). -/
def ask_overwrite (_dst : String) (w : World) : Run Int :=
  ask_overwrite_loop (w.reads STDIN_FILENO) w

/-- The message of line 86. -/
def write_err_msg : List Byte := "Error: write failed\n".toList

/-- The message of line 92. -/
def read_err_msg : List Byte := "Error: read failed\n".toList

/-- The body of `copy_file` (lines 84-96), on the results `rs` the successive
`read` calls on `src_fd` are going to give. -/
def copy_file_loop (src_fd dst_fd : Int) : List ReadRes → World → Run Int
  | [], w => { ret := none, trace := [], world := w }
  | r :: rs, w =>
    let w1 : World := { w with reads := Function.update w.reads src_fd rs }
    let rd : Run Int :=
      { ret := some r.ret, trace := [Event.read src_fd BUF_SIZE r], world := w1 }
    rd.andThen fun bytes_read w2 =>
      if bytes_read > 0 then
        (write_all dst_fd r.bytes bytes_read w2).andThen fun res w3 =>
          if res < 0 then
            (write_str STDERR_FILENO write_err_msg w3).andThen fun _ w4 =>
              Run.done (-1) w4
          else
            copy_file_loop src_fd dst_fd rs w3
      else if bytes_read < 0 then
        (write_str STDERR_FILENO read_err_msg w2).andThen fun _ w3 =>
          Run.done (-1) w3
      else
        Run.done 0 w2

/-- `copy_file(src_fd, dst_fd)` (lines 80-97). -/
def copy_file (src_fd dst_fd : Int) (w : World) : Run Int :=
  copy_file_loop src_fd dst_fd (w.reads src_fd) w

/-- The message of line 103. -/
def usage_msg : List Byte := "Usage: ./my_copy <source_file> <dest_file>\n".toList

/-- The message of line 114. -/
def src_err_msg : List Byte :=
  "Error: source file does not exist or cannot be read\n".toList

/-- The message of line 122. -/
def cancel_msg : List Byte := "Copy operation canceled by the user.\n".toList

/-- The message of line 132. -/
def dst_err_msg : List Byte := "Error: cannot open destination file\n".toList

/-- Lines 128-148 of `main`: open the destination, copy, close. -/
def main_copy (src_fd : Int) (dst : String) (w : World) : Run Int :=
  (sys_open dst OpenFlags.O_WRONLY_CREAT_TRUNC w).andThen fun dst_fd w1 =>
    if dst_fd < 0 then
      (write_str STDERR_FILENO dst_err_msg w1).andThen fun _ w2 =>
        (sys_close src_fd w2).andThen fun _ w3 => Run.done 1 w3
    else
      (copy_file src_fd dst_fd w1).andThen fun res w2 =>
        if res < 0 then
          (sys_close src_fd w2).andThen fun _ w3 =>
            (sys_close dst_fd w3).andThen fun _ w4 => Run.done 1 w4
        else
          (sys_close src_fd w2).andThen fun _ w3 =>
            (sys_close dst_fd w3).andThen fun _ w4 => Run.done 0 w4

/-- `main(argc, argv)` (lines 99-149); `argv` holds the program name and the
arguments, `argc` is its length. -/
def main (argv : List String) (w : World) : Run Int :=
  if argv.length ≠ 3 then
    (write_str STDERR_FILENO usage_msg w).andThen fun _ w1 => Run.done 1 w1
  else
    let src := argv.getD 1 ""
    let dst := argv.getD 2 ""
    (sys_open src OpenFlags.O_RDONLY w).andThen fun src_fd w1 =>
      if src_fd < 0 then
        (write_str STDERR_FILENO src_err_msg w1).andThen fun _ w2 => Run.done 1 w2
      else
        (file_exists dst w1).andThen fun ex w2 =>
          if ex ≠ 0 then
            (ask_overwrite dst w2).andThen fun ans w3 =>
              if ans = 0 then
                (write_str STDOUT_FILENO cancel_msg w3).andThen fun _ w4 =>
                  (sys_close src_fd w4).andThen fun _ w5 => Run.done 0 w5
              else
                main_copy src_fd dst w3
          else
            main_copy src_fd dst w2

/-! ## Notions used to state the properties -/

/-- The `i`-th `write` call of a `write_all` that starts with `written` bytes
done and receives the results `ws`: it passes the pointer `buf + acc` and the
length `count - acc`, where `acc` is `written` plus the earlier results. -/
def nth_write (fd : Int) (buf : List Byte) (count written : Int) (ws : List Int)
    (i : Nat) : Event :=
  Event.write fd
    ((buf.drop (written + (ws.take i).sum).toNat).take
      (count - (written + (ws.take i).sum)).toNat)
    (ws.getD i 0)

/-- The bytes of a `write` call on `fd` that the kernel accepted: the first
`ret` bytes of the payload (none for a failed call or for another call). -/
def accepted (fd : Int) : Event → List Byte
  | Event.write fd1 payload ret => if fd1 = fd then payload.take ret.toNat else []
  | _ => []

/-- The bytes accepted on `fd` during a run, concatenated in order. -/
def bytes_accepted (fd : Int) : List Event → List Byte
  | [] => []
  | e :: es => accepted fd e ++ bytes_accepted fd es

/-- The kernel goes on answering the `write` calls on a descriptor for at least
`n` calls and never answers `0`: each call transfers at least one byte or
fails. -/
def Live (ws : List Int) (n : Nat) : Prop :=
  n ≤ ws.length ∧ ∀ x ∈ ws, x ≠ 0

/-- What one iteration of the loop of `ask_overwrite` decides from the result of
its `read` (lines 60-69): the value returned, or `none` when the character is
not an answer and the loop goes on. -/
def decision (r : ReadRes) : Option Int :=
  if r.ret ≤ 0 then some 0
  else if r.bytes.headD (Char.ofNat 0) = 'y' ∨ r.bytes.headD (Char.ofNat 0) = 'Y' then some 1
  else if r.bytes.headD (Char.ofNat 0) = 'n' ∨ r.bytes.headD (Char.ofNat 0) = 'N' then some 0
  else none

/-- The call is a `write` on `fd` that passes exactly the bytes `msg`. -/
def is_write_of (fd : Int) (msg : List Byte) : Event → Bool
  | Event.write g p _ => decide (g = fd ∧ p = msg)
  | _ => false

/-- The call is a `read` on `fd`. -/
def is_read_on (fd : Int) : Event → Bool
  | Event.read g _ _ => decide (g = fd)
  | _ => false

/-- A call that `ask_overwrite` can issue: a `write` on standard output or a
`read` of one character on standard input. -/
def AskEv (e : Event) : Prop :=
  (∃ p r, e = Event.write STDOUT_FILENO p r) ∨ ∃ r, e = Event.read STDIN_FILENO 1 r

/-- A call that `copy_file src_fd dst_fd` can issue: a `read` of `BUF_SIZE`
bytes on the source, a `write` on the destination, or a `write` on the error
stream. -/
def CopyEv (src_fd dst_fd : Int) (e : Event) : Prop :=
  (∃ res, e = Event.read src_fd BUF_SIZE res) ∨ (∃ p r, e = Event.write dst_fd p r) ∨
    ∃ p r, e = Event.write STDERR_FILENO p r

/-- Number of calls of `open` in the run that succeeded and returned the
descriptor `fd`. -/
def opened (fd : Int) : List Event → Nat
  | [] => 0
  | Event.open_ _ _ r :: es => (if 0 ≤ r ∧ r = fd then 1 else 0) + opened fd es
  | _ :: es => opened fd es

/-- Number of calls of `close` on the descriptor `fd` in the run. -/
def closed (fd : Int) : List Event → Nat
  | [] => 0
  | Event.close g :: es => (if g = fd then 1 else 0) + closed fd es
  | _ :: es => closed fd es

/-- The call is an `open` or a `close`. -/
def is_oc : Event → Bool
  | Event.open_ _ _ _ => true
  | Event.close _ => true
  | _ => false

/-- The call is an `open` with `O_WRONLY | O_CREAT | O_TRUNC`. -/
def is_creat : Event → Bool
  | Event.open_ _ OpenFlags.O_WRONLY_CREAT_TRUNC _ => true
  | _ => false

/-! ## A file system behind the calls

The world above fixes the results of the calls without saying where they come
from.  `FS` is the state of a POSIX file system as far as this program can
see it, and `FS.step` says which result of a call is one that such a file
system gives, and how the call changes it:

* a path names at most one file, and several paths may name the same file
  (`f` and `./f`, links);
* `open` may fail at any time; it succeeds only with a descriptor that is not
  in use, and read-only only on a path that names a file; with
  `O_CREAT | O_TRUNC` it empties the file the path names, or creates an empty
  file under that path when it names none;
* a `read` or a `write` may fail at any time and then changes nothing; a
  `read` that succeeds on a descriptor of a file delivers bytes found at its
  offset, at most `count` of them and none only at the end of the file, and
  advances the offset; a `write` that succeeds stores the bytes accepted at the
  offset and advances it; a `read` on a write-only descriptor and a `write` on
  a read-only one fail;
* calls on descriptors that are not files of this file system (a terminal, a
  pipe) are not constrained.
-/

/-- State of the file system: the file each path names, the content of each
file, for each descriptor open on a file its file, offset and flags, and the
identity the next file created is going to get. -/
structure FS where
  names : String → Option Nat
  content : Nat → List Byte
  fds : Int → Option (Nat × Nat × OpenFlags)
  fresh : Nat

/-- Effect of one call on the file system; `none` when the result recorded in
the call is not one the file system gives in this state. -/
def FS.step (fs : FS) : Event → Option FS
  | Event.open_ path flags r =>
    if r < 0 then some fs
    else if (fs.fds r).isSome then none
    else
      match flags, fs.names path with
      | OpenFlags.O_RDONLY, some i =>
        some { fs with fds := Function.update fs.fds r (some (i, 0, flags)) }
      | OpenFlags.O_RDONLY, none => none
      | OpenFlags.O_WRONLY_CREAT_TRUNC, some i =>
        some { fs with
          content := Function.update fs.content i [],
          fds := Function.update fs.fds r (some (i, 0, flags)) }
      | OpenFlags.O_WRONLY_CREAT_TRUNC, none =>
        some { names := Function.update fs.names path (some fs.fresh),
               content := Function.update fs.content fs.fresh [],
               fds := Function.update fs.fds r (some (fs.fresh, 0, flags)),
               fresh := fs.fresh + 1 }
  | Event.close fd => some { fs with fds := Function.update fs.fds fd none }
  | Event.read fd n res =>
    match fs.fds fd with
    | none => some fs
    | some (i, off, flags) =>
      match flags, res with
      | OpenFlags.O_RDONLY, ReadRes.data bs =>
        if bs.length ≤ n ∧ bs = ((fs.content i).drop off).take bs.length ∧
            (bs = [] → (fs.content i).drop off = [] ∨ n = 0) then
          some { fs with fds := Function.update fs.fds fd (some (i, off + bs.length, flags)) }
        else none
      | OpenFlags.O_RDONLY, ReadRes.fail => some fs
      | OpenFlags.O_WRONLY_CREAT_TRUNC, ReadRes.fail => some fs
      | OpenFlags.O_WRONLY_CREAT_TRUNC, ReadRes.data _ => none
  | Event.write fd payload r =>
    match fs.fds fd with
    | none => some fs
    | some (i, off, flags) =>
      match flags with
      | OpenFlags.O_RDONLY => if r < 0 then some fs else none
      | OpenFlags.O_WRONLY_CREAT_TRUNC =>
        if r < 0 then some fs
        else if r ≤ (payload.length : Int) then
          some { fs with
            content := Function.update fs.content i
              ((fs.content i).take off ++ payload.take r.toNat ++
                (fs.content i).drop (off + r.toNat)),
            fds := Function.update fs.fds fd (some (i, off + r.toNat, flags)) }
        else none

/-- The file system after the calls of a run, when every result recorded is one
the file system gives. -/
def replay : FS → List Event → Option FS
  | fs, [] => some fs
  | fs, e :: es =>
    match fs.step e with
    | none => none
    | some fs1 => replay fs1 es

/-- A call that stores nothing in a file unless `sfd` is open for writing on
one: a read-only `open`, a `close`, a `read`, or a `write` on `sfd`. -/
def Quiet (sfd : Int) (e : Event) : Prop :=
  (∃ path r, e = Event.open_ path OpenFlags.O_RDONLY r) ∨ (∃ fd, e = Event.close fd) ∨
    (∃ fd n res, e = Event.read fd n res) ∨ ∃ p q, e = Event.write sfd p q

/-- The descriptor `sfd` is not open for writing on a file: it is no
descriptor of a file (a terminal, a pipe) or a read-only one. -/
def NotWritable (fs : FS) (sfd : Int) : Prop :=
  fs.fds sfd = none ∨ ∃ i o, fs.fds sfd = some (i, o, OpenFlags.O_RDONLY)

/-! ## Concrete worlds -/

/-- A source on descriptor `3` delivered as `abc`, `d` and the end of input; a
destination on descriptor `4` that accepts `2`, `1` and `1` bytes. -/
def world_copy : World :=
  { opens := [],
    reads := fun fd =>
      if fd = 3 then [ReadRes.data ['a', 'b', 'c'], ReadRes.data ['d'], ReadRes.data []] else [],
    writes := fun fd => if fd = 4 then [2, 1, 1] else [] }

/-- A run in which the source opens on `3`, the probe of the destination fails,
the destination is created on `4` and the second `read` of the source fails. -/
def world_read_error : World :=
  { opens := [3, -1, 4],
    reads := fun fd => if fd = 3 then [ReadRes.data ['a', 'b'], ReadRes.fail] else [],
    writes := fun fd => if fd = 4 then [2] else if fd = 2 then [19] else [] }

/-- An error stream that takes a whole message at each `write`. -/
def world_stderr : World :=
  { opens := [-1],
    reads := fun _ => [],
    writes := fun fd => if fd = 2 then List.replicate 52 52 else [] }

/-- The destination exists and the user answers `n`. -/
def world_cancel : World :=
  { opens := [3, 4],
    reads := fun fd => if fd = 0 then [ReadRes.data ['n']] else [],
    writes := fun fd => if fd = 1 then List.replicate 145 145 else [] }

/-- The user types `x` and then `y`. -/
def world_retry : World :=
  { opens := [],
    reads := fun fd => if fd = 0 then [ReadRes.data ['x'], ReadRes.data ['y']] else [],
    writes := fun fd => if fd = 1 then List.replicate 256 108 else [] }

/-- A successful copy of `ab` to a destination that does not exist yet. -/
def world_fresh : World :=
  { opens := [3, -1, 4],
    reads := fun fd => if fd = 3 then [ReadRes.data ['a', 'b'], ReadRes.data []] else [],
    writes := fun fd => if fd = 4 then [1, 1] else [] }

/-- A destination on descriptor `4` that accepts `2` bytes and then `1`. -/
def world_short_write : World :=
  { opens := [], reads := fun _ => [], writes := fun fd => if fd = 4 then [2, 1] else [] }

/-- Source and destination are the same file: the three `open` calls succeed,
the user answers `y`, and the `read` of the source finds it empty. -/
def world_same : World :=
  { opens := [3, 4, 4],
    reads := fun fd =>
      if fd = 0 then [ReadRes.data ['y']] else if fd = 3 then [ReadRes.data []] else [],
    writes := fun fd => if fd = 1 then List.replicate 108 108 else [] }

/-- A file system with a single file, of content `ab`, named by the paths `f`
and `./f`, and no descriptor open on a file. -/
def fs_same : FS :=
  { names := fun q => if q = "f" ∨ q = "./f" then some 0 else none,
    content := fun i => if i = 0 then ['a', 'b'] else [],
    fds := fun _ => none,
    fresh := 1 }

/-! ## Unfolding and sequencing lemmas -/

theorem write_all_loop_nil (fd : Int) (buf : List Byte) (count written : Int) :
    write_all_loop fd buf count written [] =
      if written < count then (none, [], []) else (some 0, [], []) := by
  simp [write_all_loop]

theorem write_all_loop_cons (fd : Int) (buf : List Byte) (count written r : Int)
    (rest : List Int) :
    write_all_loop fd buf count written (r :: rest) =
      if written < count then
        if r < 0 then
          (some (-1),
            [Event.write fd ((buf.drop written.toNat).take (count - written).toNat) r], rest)
        else
          ((write_all_loop fd buf count (written + r) rest).1,
            Event.write fd ((buf.drop written.toNat).take (count - written).toNat) r ::
              (write_all_loop fd buf count (written + r) rest).2.1,
            (write_all_loop fd buf count (written + r) rest).2.2)
      else (some 0, [], r :: rest) := by
  simp [write_all_loop]

theorem nth_write_cons_succ (fd : Int) (buf : List Byte) (count written r : Int)
    (ws : List Int) (i : Nat) :
    nth_write fd buf count written (r :: ws) (i + 1) =
      nth_write fd buf count (written + r) ws i := by
  simp [nth_write, add_assoc]

/-- Shape of a run of the loop of `write_all`: `n` calls are issued, the `i`-th
one is `nth_write`, each is issued with less than `count` bytes done, all
results but the last are non-negative, and the return value is decided by the
last result and the bytes done. -/
theorem write_all_loop_spec (fd : Int) (buf : List Byte) (count : Int) :
    ∀ (ws : List Int) (written : Int),
      ∃ n, n ≤ ws.length ∧
        (write_all_loop fd buf count written ws).2.1 =
          (List.range n).map (nth_write fd buf count written ws) ∧
        (write_all_loop fd buf count written ws).2.2 = ws.drop n ∧
        (∀ i, i < n → written + (ws.take i).sum < count) ∧
        (∀ i, i + 1 < n → 0 ≤ ws.getD i 0) ∧
        (((write_all_loop fd buf count written ws).1 = none ∧ n = ws.length ∧
            (∀ i, i < n → 0 ≤ ws.getD i 0) ∧ written + (ws.take n).sum < count) ∨
         ((write_all_loop fd buf count written ws).1 = some (-1) ∧ 0 < n ∧
            ws.getD (n - 1) 0 < 0) ∨
         ((write_all_loop fd buf count written ws).1 = some 0 ∧
            (∀ i, i < n → 0 ≤ ws.getD i 0) ∧ count ≤ written + (ws.take n).sum)) := by
  intro ws
  induction ws with
  | nil =>
    intro written
    refine ⟨0, le_refl _, ?_⟩
    rw [write_all_loop_nil]
    by_cases h : written < count
    · simp [h]
    · simp [h]; omega
  | cons r rest ih =>
    intro written
    rw [write_all_loop_cons]
    by_cases h : written < count
    · by_cases hr : r < 0
      · refine ⟨1, by simp, ?_⟩
        simp [h, hr, nth_write, List.range_succ_eq_map]
      · obtain ⟨n, hn, htr, hrest, hlt, hnn, hret⟩ := ih (written + r)
        refine ⟨n + 1, by simpa using hn, ?_, ?_, ?_, ?_, ?_⟩
        · simp only [h, hr, if_true, if_false]
          rw [List.range_succ_eq_map, List.map_cons, List.map_map, htr]
          congr 1
          · simp [nth_write]
          · apply List.map_congr_left
            intro i _
            simp [nth_write_cons_succ]
        · simp [h, hr, hrest]
        · intro i hi
          cases i with
          | zero => simpa using h
          | succ j =>
            have := hlt j (by omega)
            simpa [add_assoc] using this
        · intro i hi
          cases i with
          | zero => simpa using not_lt.mp hr
          | succ j => simpa using hnn j (by omega)
        · have hr0 : 0 ≤ r := not_lt.mp hr
          have hall : (∀ i, i < n → 0 ≤ rest.getD i 0) →
              ∀ i, i < n + 1 → 0 ≤ (r :: rest).getD i 0 := by
            intro hh i hi
            cases i with
            | zero => simpa using hr0
            | succ j => simpa using hh j (by omega)
          simp only [h, hr, if_true, if_false]
          rcases hret with ⟨h1, h2, h3, h4⟩ | ⟨h1, h2, h3⟩ | ⟨h1, h3, h4⟩
          · left
            refine ⟨h1, by simp [h2], hall h3, ?_⟩
            simpa [add_assoc] using h4
          · right; left
            refine ⟨h1, by omega, ?_⟩
            obtain ⟨m, rfl⟩ : ∃ m, n = m + 1 := ⟨n - 1, by omega⟩
            simpa using h3
          · right; right
            refine ⟨h1, hall h3, ?_⟩
            simpa [add_assoc] using h4
    · refine ⟨0, by simp, ?_⟩
      simp [h]
      omega

theorem sum_take_succ_getD (ws : List Int) (i : Nat) (h : i < ws.length) :
    (ws.take (i + 1)).sum = (ws.take i).sum + ws.getD i 0 := by
  rw [List.sum_take_succ ws i h, List.getD_eq_getElem ws 0 h]

theorem andThen_some {α β : Type} (r : Run α) (k : α → World → Run β) (a : α)
    (h : r.ret = some a) :
    r.andThen k =
      { ret := (k a r.world).ret, trace := r.trace ++ (k a r.world).trace,
        world := (k a r.world).world } := by
  simp [Run.andThen, h]

theorem andThen_none {α β : Type} (r : Run α) (k : α → World → Run β)
    (h : r.ret = none) :
    r.andThen k = { ret := none, trace := r.trace, world := r.world } := by
  simp [Run.andThen, h]

theorem mem_trace_andThen {α β : Type} (r : Run α) (k : α → World → Run β) (e : Event)
    (h : e ∈ r.trace) : e ∈ (r.andThen k).trace := by
  cases hr : r.ret with
  | none => rw [andThen_none r k hr]; exact h
  | some a => rw [andThen_some r k a hr]; exact List.mem_append_left _ h

theorem bytes_accepted_append (fd : Int) (t1 t2 : List Event) :
    bytes_accepted fd (t1 ++ t2) = bytes_accepted fd t1 ++ bytes_accepted fd t2 := by
  induction t1 with
  | nil => simp [bytes_accepted]
  | cons e es ih => simp [bytes_accepted, ih]

/-- Every call of the loop of `write_all` is a `write` on `fd`. -/
theorem write_all_loop_events (fd : Int) (buf : List Byte) (count : Int) :
    ∀ (ws : List Int) (written : Int) (e : Event),
      e ∈ (write_all_loop fd buf count written ws).2.1 → ∃ p r, e = Event.write fd p r := by
  intro ws
  induction ws with
  | nil =>
    intro written e he
    rw [write_all_loop_nil] at he
    split_ifs at he <;> simp at he
  | cons r rest ih =>
    intro written e he
    rw [write_all_loop_cons] at he
    split_ifs at he
    · simp at he; exact ⟨_, _, he⟩
    · simp only [List.mem_cons] at he
      rcases he with he | he
      · exact ⟨_, _, he⟩
      · exact ih _ e he
    · simp at he

/-- When the loop of `write_all` returns `0` and every result was between `0`
and the length requested, the bytes accepted are the part of the buffer from
`written` to `count`. -/
theorem write_all_loop_accepted (fd : Int) (buf : List Byte) (count : Int) :
    ∀ (ws : List Int) (written : Int), 0 ≤ written →
      (∀ p r, Event.write fd p r ∈ (write_all_loop fd buf count written ws).2.1 →
        r ≤ (p.length : Int)) →
      (write_all_loop fd buf count written ws).1 = some 0 →
      bytes_accepted fd (write_all_loop fd buf count written ws).2.1 =
        (buf.drop written.toNat).take (count - written).toNat := by
  intro ws
  induction ws with
  | nil =>
    intro written _ _ hret
    rw [write_all_loop_nil] at hret ⊢
    by_cases h : written < count
    · simp [h] at hret
    · have : (count - written).toNat = 0 := by omega
      simp [h, bytes_accepted, this]
  | cons r rest ih =>
    intro written hw hb hret
    rw [write_all_loop_cons] at hret hb ⊢
    by_cases h : written < count
    · by_cases hr : r < 0
      · simp [h, hr] at hret
      · simp only [h, hr, if_true, if_false] at hret hb ⊢
        have hr0 : 0 ≤ r := not_lt.mp hr
        have hlen := hb _ r (List.mem_cons_self _ _)
        rw [List.length_take, List.length_drop] at hlen
        have hrle : r ≤ count - written := by omega
        have ih' := ih (written + r) (by omega)
          (fun p q hm => hb p q (List.mem_cons_of_mem _ hm)) hret
        simp only [bytes_accepted, accepted, if_true, ih']
        have e1 : (written + r).toNat = written.toNat + r.toNat := by omega
        have e2 : (count - (written + r)).toNat = (count - written).toNat - r.toNat := by omega
        rw [e1, e2]
        conv_rhs => rw [← List.take_append_drop r.toNat
          (List.take (count - written).toNat (List.drop written.toNat buf))]
        congr 1
        rw [List.drop_take, List.drop_drop]
    · have : (count - written).toNat = 0 := by omega
      simp [h, bytes_accepted, this]

/-- When every result still to come is at least `1`, the results add up to at
least what remains to be written, and no result exceeds the length requested,
the loop of `write_all` returns `0` having consumed results that add up to
exactly what remained. -/
theorem write_all_loop_pos (fd : Int) (buf : List Byte) (count : Int) :
    ∀ (ws : List Int) (written : Int), written ≤ count →
      (∀ x ∈ ws, 1 ≤ x) → count - written ≤ ws.sum →
      (∀ p r, Event.write fd p r ∈ (write_all_loop fd buf count written ws).2.1 →
        r ≤ (p.length : Int)) →
      (write_all_loop fd buf count written ws).1 = some 0 ∧
      (write_all_loop fd buf count written ws).2.2.sum = ws.sum - (count - written) ∧
      (∀ x ∈ (write_all_loop fd buf count written ws).2.2, 1 ≤ x) := by
  intro ws
  induction ws with
  | nil =>
    intro written hw _ hsum _
    rw [write_all_loop_nil]
    simp only [List.sum_nil] at hsum
    have h : ¬ written < count := by omega
    simp [h]; omega
  | cons r rest ih =>
    intro written hw hpos hsum hb
    rw [write_all_loop_cons] at hb ⊢
    have hr1 : 1 ≤ r := hpos r (List.mem_cons_self _ _)
    have hr : ¬ r < 0 := by omega
    simp only [List.sum_cons] at hsum
    by_cases h : written < count
    · simp only [h, hr, if_true, if_false] at hb ⊢
      have hlen := hb _ r (List.mem_cons_self _ _)
      rw [List.length_take] at hlen
      have hrle : r ≤ count - written := by omega
      obtain ⟨h1, h2, h3⟩ := ih (written + r) (by omega)
        (fun x hx => hpos x (List.mem_cons_of_mem _ hx)) (by omega)
        (fun p q hm => hb p q (List.mem_cons_of_mem _ hm))
      refine ⟨h1, ?_, h3⟩
      rw [h2, List.sum_cons]; omega
    · simp only [h, if_false]
      refine ⟨trivial, ?_, hpos⟩
      rw [List.sum_cons]; omega

theorem write_all_ret (fd : Int) (buf : List Byte) (count : Int) (w : World) :
    (write_all fd buf count w).ret = (write_all_loop fd buf count 0 (w.writes fd)).1 := rfl

theorem write_all_trace (fd : Int) (buf : List Byte) (count : Int) (w : World) :
    (write_all fd buf count w).trace =
      (write_all_loop fd buf count 0 (w.writes fd)).2.1 := rfl

theorem write_all_world_writes (fd : Int) (buf : List Byte) (count : Int) (w : World) :
    (write_all fd buf count w).world.writes =
      Function.update w.writes fd (write_all_loop fd buf count 0 (w.writes fd)).2.2 := rfl

theorem write_all_world_reads (fd : Int) (buf : List Byte) (count : Int) (w : World) :
    (write_all fd buf count w).world.reads = w.reads := rfl

theorem write_all_world_opens (fd : Int) (buf : List Byte) (count : Int) (w : World) :
    (write_all fd buf count w).world.opens = w.opens := rfl

theorem copy_file_loop_cons (src_fd dst_fd : Int) (r : ReadRes) (rs : List ReadRes)
    (w : World) :
    copy_file_loop src_fd dst_fd (r :: rs) w =
      (({ ret := some r.ret, trace := [Event.read src_fd BUF_SIZE r],
          world := { w with reads := Function.update w.reads src_fd rs } } : Run Int).andThen
        fun bytes_read w2 =>
          if bytes_read > 0 then
            (write_all dst_fd r.bytes bytes_read w2).andThen fun res w3 =>
              if res < 0 then
                (write_str STDERR_FILENO write_err_msg w3).andThen fun _ w4 =>
                  Run.done (-1) w4
              else
                copy_file_loop src_fd dst_fd rs w3
          else if bytes_read < 0 then
            (write_str STDERR_FILENO read_err_msg w2).andThen fun _ w3 =>
              Run.done (-1) w3
          else
            Run.done 0 w2) := by
  simp [copy_file_loop]

/-- The copy loop on a source delivered in non-empty chunks and then an end of
input, with a destination that accepts at least one byte at each `write`. -/
theorem copy_file_loop_ok (src_fd dst_fd : Int) (more : List ReadRes) :
    ∀ (chunks : List (List Byte)) (w : World),
      (∀ c ∈ chunks, 1 ≤ c.length) →
      (∀ x ∈ w.writes dst_fd, 1 ≤ x) →
      (chunks.flatten.length : Int) ≤ (w.writes dst_fd).sum →
      (∀ p r, Event.write dst_fd p r ∈
          (copy_file_loop src_fd dst_fd
            (chunks.map ReadRes.data ++ ReadRes.data [] :: more) w).trace →
        r ≤ (p.length : Int)) →
      (copy_file_loop src_fd dst_fd
          (chunks.map ReadRes.data ++ ReadRes.data [] :: more) w).ret = some 0 ∧
      bytes_accepted dst_fd (copy_file_loop src_fd dst_fd
          (chunks.map ReadRes.data ++ ReadRes.data [] :: more) w).trace = chunks.flatten ∧
      (∀ e ∈ (copy_file_loop src_fd dst_fd
          (chunks.map ReadRes.data ++ ReadRes.data [] :: more) w).trace,
        (∃ c, e = Event.read src_fd BUF_SIZE (ReadRes.data c)) ∨
          ∃ p r, e = Event.write dst_fd p r) := by
  intro chunks
  induction chunks with
  | nil =>
    intro w _ _ _ _
    simp [copy_file_loop_cons, Run.andThen, ReadRes.ret, Run.done, bytes_accepted, accepted]
  | cons c cs ih =>
    intro w hc hpos hsum hb
    have hc1 : 1 ≤ c.length := hc c (List.mem_cons_self _ _)
    simp only [List.map_cons, List.cons_append] at hb ⊢
    rw [copy_file_loop_cons] at hb ⊢
    have hret : ((ReadRes.data c).ret) = (c.length : Int) := rfl
    have hgt : ((c.length : Int) > 0) := by omega
    rw [andThen_some _ _ (c.length : Int) (by rw [hret])] at hb ⊢
    simp only [hgt, if_true, ReadRes.bytes] at hb ⊢
    set w1 : World := World.mk w.opens (Function.update w.reads src_fd (cs.map ReadRes.data ++ ReadRes.data [] :: more)) w.writes with hw1
    have hw1w : w1.writes dst_fd = w.writes dst_fd := rfl
    simp only [List.flatten_cons, List.length_append, Nat.cast_add] at hsum
    -- the write_all of this chunk
    have hbwa : ∀ p r, Event.write dst_fd p r ∈
        (write_all_loop dst_fd c (c.length : Int) 0 (w1.writes dst_fd)).2.1 →
        r ≤ (p.length : Int) := by
      intro p r hm
      apply hb p r
      simp only [List.mem_append, List.mem_singleton, List.mem_cons]
      right
      exact mem_trace_andThen _ _ _ hm
    obtain ⟨h1, h2, h3⟩ := write_all_loop_pos dst_fd c (c.length : Int) (w1.writes dst_fd) 0
      (by omega) (by rw [hw1w]; exact hpos) (by rw [hw1w]; omega) hbwa
    have hacc := write_all_loop_accepted dst_fd c (c.length : Int) (w1.writes dst_fd) 0
      (le_refl _) hbwa h1
    have hwaret : (write_all dst_fd c (c.length : Int) w1).ret = some 0 := h1
    rw [andThen_some _ _ 0 hwaret] at hb ⊢
    simp only [lt_irrefl, if_false] at hb ⊢
    set w3 := (write_all dst_fd c (c.length : Int) w1).world with hw3
    have hw3w : w3.writes dst_fd =
        (write_all_loop dst_fd c (c.length : Int) 0 (w1.writes dst_fd)).2.2 := by
      rw [hw3, write_all_world_writes, Function.update_same]
    obtain ⟨i1, i2, i3⟩ := ih w3 (fun x hx => hc x (List.mem_cons_of_mem _ hx))
      (by rw [hw3w]; exact h3)
      (by rw [hw3w, h2, hw1w]; omega)
      (by
        intro p r hm
        apply hb p r
        simp only [List.mem_append, List.mem_singleton, List.mem_cons]
        right; right; exact hm)
    refine ⟨i1, ?_, ?_⟩
    · have hacc' : bytes_accepted dst_fd (write_all dst_fd c (c.length : Int) w1).trace = c := by
        rw [write_all_trace, hacc]; simp
      rw [bytes_accepted_append, bytes_accepted_append, hacc', i2]
      simp [bytes_accepted, accepted]
    · intro e he
      simp only [List.mem_append, List.mem_singleton, List.mem_cons, List.not_mem_nil,
        or_false] at he
      rcases he with he | he | he
      · left; exact ⟨c, he⟩
      · right; exact write_all_loop_events dst_fd c _ _ _ e he
      · exact i3 e he

/-- With results that are never `0`, the loop of `write_all` needs at most as
many calls as there are bytes left to write. -/
theorem write_all_loop_live (fd : Int) (buf : List Byte) (count : Int) :
    ∀ (ws : List Int) (written : Int),
      (∀ x ∈ ws, x ≠ 0) → (count - written).toNat ≤ ws.length →
      (write_all_loop fd buf count written ws).1 ≠ none ∧
      ws.length - (count - written).toNat ≤
        (write_all_loop fd buf count written ws).2.2.length ∧
      (∀ x ∈ (write_all_loop fd buf count written ws).2.2, x ≠ 0) := by
  intro ws
  induction ws with
  | nil =>
    intro written _ hlen
    rw [write_all_loop_nil]
    have h : ¬ written < count := by
      simp only [List.length_nil] at hlen; omega
    simp [h]
  | cons r rest ih =>
    intro written hnz hlen
    rw [write_all_loop_cons]
    have hr0 : r ≠ 0 := hnz r (List.mem_cons_self _ _)
    have hnz' : ∀ x ∈ rest, x ≠ 0 := fun x hx => hnz x (List.mem_cons_of_mem _ hx)
    simp only [List.length_cons] at hlen ⊢
    by_cases h : written < count
    · by_cases hr : r < 0
      · simp only [h, hr, if_true]
        refine ⟨by simp, by omega, hnz'⟩
      · simp only [h, hr, if_true, if_false]
        obtain ⟨h1, h2, h3⟩ := ih (written + r) hnz' (by omega)
        refine ⟨h1, by omega, h3⟩
    · simp only [h, if_false]
      refine ⟨by simp, by simp, hnz⟩

theorem write_str_ret (fd : Int) (msg : List Byte) (w : World) :
    (write_str fd msg w).ret =
      (write_all fd msg (msg.length : Int) w).ret.map (fun _ => ()) := by
  unfold write_str
  cases h : (write_all fd msg (msg.length : Int) w).ret with
  | none => rw [andThen_none _ _ h]; rfl
  | some a => rw [andThen_some _ _ a h]; rfl

theorem write_str_trace (fd : Int) (msg : List Byte) (w : World) :
    (write_str fd msg w).trace =
      (write_all_loop fd msg (msg.length : Int) 0 (w.writes fd)).2.1 := by
  unfold write_str
  cases h : (write_all fd msg (msg.length : Int) w).ret with
  | none => rw [andThen_none _ _ h]; rfl
  | some a => rw [andThen_some _ _ a h]; simp [Run.done]; rfl

theorem write_str_world (fd : Int) (msg : List Byte) (w : World) :
    (write_str fd msg w).world =
      (write_all fd msg (msg.length : Int) w).world := by
  unfold write_str
  cases h : (write_all fd msg (msg.length : Int) w).ret with
  | none => rw [andThen_none _ _ h]
  | some a => rw [andThen_some _ _ a h]; rfl

theorem write_str_opens (fd : Int) (msg : List Byte) (w : World) :
    (write_str fd msg w).world.opens = w.opens := by
  rw [write_str_world]; rfl

theorem write_str_reads (fd : Int) (msg : List Byte) (w : World) :
    (write_str fd msg w).world.reads = w.reads := by
  rw [write_str_world]; rfl

theorem write_str_writes_ne (fd fd1 : Int) (msg : List Byte) (w : World) (h : fd1 ≠ fd) :
    (write_str fd msg w).world.writes fd1 = w.writes fd1 := by
  rw [write_str_world, write_all_world_writes, Function.update_noteq h]

/-- Every call of `write_str` is a `write` on `fd`. -/
theorem write_str_events (fd : Int) (msg : List Byte) (w : World) (e : Event)
    (he : e ∈ (write_str fd msg w).trace) : ∃ p r, e = Event.write fd p r := by
  rw [write_str_trace] at he
  exact write_all_loop_events fd _ _ _ _ e he

/-- A `write_str` of a message of at most `n` bytes returns when the descriptor
is live for `n` calls, and leaves it live for the calls not used. -/
theorem write_str_live (fd : Int) (msg : List Byte) (w : World) (n : Nat)
    (hl : Live (w.writes fd) n) (hn : msg.length ≤ n) :
    (write_str fd msg w).ret = some () ∧
      Live ((write_str fd msg w).world.writes fd) (n - msg.length) := by
  obtain ⟨hlen, hnz⟩ := hl
  obtain ⟨h1, h2, h3⟩ := write_all_loop_live fd msg (msg.length : Int)
    (w.writes fd) 0 hnz (by simp; omega)
  constructor
  · rw [write_str_ret, write_all_ret]
    cases h : (write_all_loop fd msg (msg.length : Int) 0 (w.writes fd)).1 with
    | none => exact absurd h h1
    | some a => rfl
  · rw [write_str_world, write_all_world_writes, Function.update_same]
    refine ⟨?_, h3⟩
    simp only [sub_zero, Int.toNat_ofNat] at h2
    omega

/-- The first call of a `write_str` of a non-empty message passes the whole
message. -/
theorem write_str_head (fd : Int) (msg : List Byte) (w : World) (r : Int) (rest : List Int)
    (hw : w.writes fd = r :: rest) (hmsg : msg ≠ []) :
    (write_str fd msg w).trace.head? = some (Event.write fd msg r) := by
  rw [write_str_trace, hw, write_all_loop_cons]
  have h : (0 : Int) < (msg.length : Int) := by
    have := List.length_pos.mpr hmsg
    omega
  by_cases hr : r < 0 <;> simp [h, hr]

/-- The loop of `write_all` returns `-1` exactly when one of its calls returned
a negative result. -/
theorem write_all_loop_neg (fd : Int) (buf : List Byte) (count : Int) :
    ∀ (ws : List Int) (written : Int),
      ((write_all_loop fd buf count written ws).1 = some (-1) ↔
        ∃ e ∈ (write_all_loop fd buf count written ws).2.1,
          ∃ g p r, e = Event.write g p r ∧ r < 0) := by
  intro ws
  induction ws with
  | nil =>
    intro written
    rw [write_all_loop_nil]
    split_ifs <;> simp
  | cons r rest ih =>
    intro written
    rw [write_all_loop_cons]
    by_cases h : written < count
    · by_cases hr : r < 0
      · simp only [h, hr, if_true, List.mem_singleton, exists_eq_left, true_iff]
        exact ⟨_, _, _, rfl, hr⟩
      · simp only [h, hr, if_true, if_false, List.mem_cons, exists_eq_or_imp]
        rw [ih (written + r)]
        constructor
        · intro hx; exact Or.inr hx
        · rintro (⟨g, p, q, he, hq⟩ | hx)
          · cases he; exact absurd hq hr
          · exact hx
    · simp [h]

/-- The loop of `write_all` returns `0`, `-1`, or is blocked. -/
theorem write_all_loop_ret (fd : Int) (buf : List Byte) (count : Int) :
    ∀ (ws : List Int) (written : Int),
      (write_all_loop fd buf count written ws).1 = none ∨
      (write_all_loop fd buf count written ws).1 = some 0 ∨
      (write_all_loop fd buf count written ws).1 = some (-1) := by
  intro ws
  induction ws with
  | nil =>
    intro written
    rw [write_all_loop_nil]
    split_ifs <;> simp
  | cons r rest ih =>
    intro written
    rw [write_all_loop_cons]
    by_cases h : written < count
    · by_cases hr : r < 0
      · simp [h, hr]
      · simpa [h, hr] using ih (written + r)
    · simp [h]

/-- When `write_str` returns and each of its calls returned between `0` and the
length requested, the bytes accepted are the message. -/
theorem write_str_accepted (fd : Int) (msg : List Byte) (w : World)
    (hret : (write_str fd msg w).ret = some ())
    (hb : ∀ p r, Event.write fd p r ∈ (write_str fd msg w).trace →
      0 ≤ r ∧ r ≤ (p.length : Int)) :
    bytes_accepted fd (write_str fd msg w).trace = msg := by
  rw [write_str_trace] at hb ⊢
  rw [write_str_ret, write_all_ret] at hret
  have h0 : (write_all_loop fd msg (msg.length : Int) 0 (w.writes fd)).1 = some 0 := by
    rcases write_all_loop_ret fd msg (msg.length : Int) (w.writes fd) 0 with h | h | h
    · rw [h] at hret; simp at hret
    · exact h
    · exfalso
      obtain ⟨e, he, g, p, r, hpr, hneg⟩ :=
        (write_all_loop_neg fd msg (msg.length : Int) (w.writes fd) 0).mp h
      obtain ⟨p1, r1, h1⟩ := write_all_loop_events fd msg _ _ _ e he
      rw [h1] at he hpr
      cases hpr
      have := (hb _ _ he).1
      omega
  rw [write_all_loop_accepted fd msg (msg.length : Int) (w.writes fd) 0 (le_refl _)
    (fun p r hm => (hb p r hm).2) h0]
  simp

theorem andThen_done_ret {β : Type} (r : Run Unit) (v : β) :
    (r.andThen fun _ w1 => Run.done v w1).ret = r.ret.map (fun _ => v) := by
  cases h : r.ret with
  | none => rw [andThen_none _ _ h]; rfl
  | some a => rw [andThen_some _ _ a h]; rfl

theorem andThen_done_trace {α β : Type} (r : Run α) (v : β) :
    (r.andThen fun _ w1 => Run.done v w1).trace = r.trace := by
  cases h : r.ret with
  | none => rw [andThen_none _ _ h]
  | some a => rw [andThen_some _ _ a h]; simp [Run.done]

theorem main_usage (argv : List String) (w : World) (h : argv.length ≠ 3) :
    main argv w =
      (write_str STDERR_FILENO usage_msg w).andThen fun _ w1 => Run.done 1 w1 := by
  simp [main, h]

theorem usage_msg_length : usage_msg.length = 43 := by decide

theorem sys_open_cons (path : String) (flags : OpenFlags) (w : World) (fd : Int)
    (rest : List Int) (h : w.opens = fd :: rest) :
    sys_open path flags w =
      { ret := some fd, trace := [Event.open_ path flags fd],
        world := { w with opens := rest } } := by
  simp [sys_open, h]

theorem sys_open_nil (path : String) (flags : OpenFlags) (w : World) (h : w.opens = []) :
    sys_open path flags w = { ret := none, trace := [], world := w } := by
  simp [sys_open, h]

theorem main_three (prog src dst : String) (w : World) :
    main [prog, src, dst] w =
      (sys_open src OpenFlags.O_RDONLY w).andThen fun src_fd w1 =>
        if src_fd < 0 then
          (write_str STDERR_FILENO src_err_msg w1).andThen fun _ w2 => Run.done 1 w2
        else
          (file_exists dst w1).andThen fun ex w2 =>
            if ex ≠ 0 then
              (ask_overwrite dst w2).andThen fun ans w3 =>
                if ans = 0 then
                  (write_str STDOUT_FILENO cancel_msg w3).andThen fun _ w4 =>
                    (sys_close src_fd w4).andThen fun _ w5 => Run.done 0 w5
                else
                  main_copy src_fd dst w3
            else
              main_copy src_fd dst w2 := by
  simp [main]

/-- With results that are never `0`, the `write` calls of a `write_all` of a
whole buffer pass the successive suffixes of the buffer, from offsets that are
at least the bytes done. -/
theorem write_all_loop_offsets (fd : Int) (buf : List Byte) :
    ∀ (ws : List Int) (written : Int), 0 ≤ written → (∀ x ∈ ws, x ≠ 0) →
      ∀ e ∈ (write_all_loop fd buf (buf.length : Int) written ws).2.1,
        ∃ o r, written.toNat ≤ o ∧ o < buf.length ∧ e = Event.write fd (buf.drop o) r := by
  intro ws
  induction ws with
  | nil =>
    intro written _ _ e he
    rw [write_all_loop_nil] at he
    split_ifs at he <;> simp at he
  | cons r rest ih =>
    intro written hw hnz e he
    rw [write_all_loop_cons] at he
    have hr0 : r ≠ 0 := hnz r (List.mem_cons_self _ _)
    have hnz' : ∀ x ∈ rest, x ≠ 0 := fun x hx => hnz x (List.mem_cons_of_mem _ hx)
    have hev : written < (buf.length : Int) →
        Event.write fd ((buf.drop written.toNat).take ((buf.length : Int) - written).toNat) r =
          Event.write fd (buf.drop written.toNat) r := by
      intro _
      rw [List.take_of_length_le]
      rw [List.length_drop]; omega
    by_cases h : written < (buf.length : Int)
    · by_cases hr : r < 0
      · simp only [h, hr, if_true, List.mem_singleton] at he
        rw [hev h] at he
        exact ⟨written.toNat, r, le_refl _, by omega, he⟩
      · simp only [h, hr, if_true, if_false, List.mem_cons] at he
        rcases he with he | he
        · rw [hev h] at he
          exact ⟨written.toNat, r, le_refl _, by omega, he⟩
        · obtain ⟨o, q, ho, hlt, heq⟩ := ih (written + r) (by omega) hnz' e he
          exact ⟨o, q, by omega, hlt, heq⟩
    · simp [h] at he

/-- With results that are never `0`, exactly one call of a `write_str` of a
non-empty message passes the whole message. -/
theorem write_str_count_self (fd : Int) (msg : List Byte) (w : World)
    (hnz : ∀ x ∈ w.writes fd, x ≠ 0) (hne : w.writes fd ≠ []) (hmsg : msg ≠ []) :
    List.countP (is_write_of fd msg) (write_str fd msg w).trace = 1 := by
  rw [write_str_trace]
  obtain ⟨r, rest, hw⟩ := List.exists_cons_of_ne_nil hne
  rw [hw] at hnz ⊢
  rw [write_all_loop_cons]
  have hr0 : r ≠ 0 := hnz r (List.mem_cons_self _ _)
  have hnz' : ∀ x ∈ rest, x ≠ 0 := fun x hx => hnz x (List.mem_cons_of_mem _ hx)
  have hlen : 0 < msg.length := List.length_pos.mpr hmsg
  have h : (0 : Int) < (msg.length : Int) := by omega
  have hself : is_write_of fd msg (Event.write fd msg r) = true := by
    simp [is_write_of]
  by_cases hr : r < 0
  · simp [h, hr, hself]
  · simp only [h, hr, if_true, if_false, Int.toNat_zero, List.drop_zero, sub_zero,
      Int.toNat_ofNat, List.take_length, zero_add]
    rw [List.countP_cons_of_pos _ _ hself]
    have : List.countP (is_write_of fd msg)
        (write_all_loop fd msg (msg.length : Int) r rest).2.1 = 0 := by
      rw [List.countP_eq_zero]
      intro e he
      obtain ⟨o, q, ho, -, heq⟩ := write_all_loop_offsets fd msg rest r (by omega) hnz' e he
      rw [heq]
      simp only [is_write_of, true_and, decide_eq_true_eq]
      intro hcon
      have := congrArg List.length hcon
      rw [List.length_drop] at this
      omega
    rw [this]

/-- With results that are never `0`, no call of a `write_str` passes bytes that
are not a suffix of the message. -/
theorem write_str_count_other (fd : Int) (msg other : List Byte) (w : World)
    (hnz : ∀ x ∈ w.writes fd, x ≠ 0) (hother : ∀ o, msg.drop o ≠ other) :
    List.countP (is_write_of fd other) (write_str fd msg w).trace = 0 := by
  rw [write_str_trace, List.countP_eq_zero]
  intro e he
  obtain ⟨o, q, -, -, heq⟩ := write_all_loop_offsets fd msg _ 0 (le_refl _) hnz e he
  rw [heq]
  simp only [is_write_of, true_and, decide_eq_true_eq]
  exact hother o

theorem write_str_count_read (fd g : Int) (msg : List Byte) (w : World) :
    List.countP (is_read_on g) (write_str fd msg w).trace = 0 := by
  rw [List.countP_eq_zero]
  intro e he
  obtain ⟨p, r, heq⟩ := write_str_events fd msg w e he
  rw [heq]; simp [is_read_on]

theorem prompt_msg_length : prompt_msg.length = 108 := by decide

theorem invalid_msg_length : invalid_msg.length = 40 := by decide

theorem prompt_drop_ne_invalid (o : Nat) : prompt_msg.drop o ≠ invalid_msg := by
  intro h
  have hl := congrArg List.length h
  rw [List.length_drop, prompt_msg_length, invalid_msg_length] at hl
  have ho : o = 68 := by omega
  subst ho
  revert h
  decide

theorem invalid_drop_ne_prompt (o : Nat) : invalid_msg.drop o ≠ prompt_msg := by
  intro h
  have hl := congrArg List.length h
  rw [List.length_drop, prompt_msg_length, invalid_msg_length] at hl
  omega

/-- The world after the prompt has been written and one result of the `read`
calls on standard input has been consumed. -/
theorem ask_overwrite_loop_decided (r : ReadRes) (rs : List ReadRes) (w : World) (v : Int)
    (hp : (write_str STDOUT_FILENO prompt_msg w).ret = some ())
    (hd : decision r = some v) :
    ask_overwrite_loop (r :: rs) w =
      { ret := some v,
        trace := (write_str STDOUT_FILENO prompt_msg w).trace ++
          [Event.read STDIN_FILENO 1 r],
        world := { (write_str STDOUT_FILENO prompt_msg w).world with
          reads := Function.update (write_str STDOUT_FILENO prompt_msg w).world.reads
            STDIN_FILENO rs } } := by
  unfold decision at hd
  rw [ask_overwrite_loop, andThen_some _ _ () hp]
  simp only [Run.andThen]
  split_ifs at hd with h1 h2 h3
  · cases hd; simp only [h1, Run.done, if_true, List.append_nil]
  · cases hd; simp only [h1, h2, Run.done, if_true, if_false, List.append_nil]
  · cases hd; simp only [h1, h2, h3, Run.done, if_true, if_false, List.append_nil]

theorem ask_overwrite_loop_invalid (r : ReadRes) (rs : List ReadRes) (w : World)
    (hp : (write_str STDOUT_FILENO prompt_msg w).ret = some ())
    (hd : decision r = none) :
    ask_overwrite_loop (r :: rs) w =
      { ret := ((write_str STDOUT_FILENO invalid_msg
            { (write_str STDOUT_FILENO prompt_msg w).world with
              reads := Function.update (write_str STDOUT_FILENO prompt_msg w).world.reads
                STDIN_FILENO rs }).andThen fun _ w4 => ask_overwrite_loop rs w4).ret,
        trace := (write_str STDOUT_FILENO prompt_msg w).trace ++
          (Event.read STDIN_FILENO 1 r ::
            ((write_str STDOUT_FILENO invalid_msg
              { (write_str STDOUT_FILENO prompt_msg w).world with
                reads := Function.update (write_str STDOUT_FILENO prompt_msg w).world.reads
                  STDIN_FILENO rs }).andThen fun _ w4 => ask_overwrite_loop rs w4).trace),
        world := ((write_str STDOUT_FILENO invalid_msg
            { (write_str STDOUT_FILENO prompt_msg w).world with
              reads := Function.update (write_str STDOUT_FILENO prompt_msg w).world.reads
                STDIN_FILENO rs }).andThen fun _ w4 => ask_overwrite_loop rs w4).world } := by
  unfold decision at hd
  rw [ask_overwrite_loop, andThen_some _ _ () hp]
  simp only [Run.andThen]
  split_ifs at hd with h1 h2 h3
  simp only [h1, h2, h3, if_false, List.singleton_append]

theorem Live.ne_nil {ws : List Int} {n : Nat} (h : Live ws n) (hn : 0 < n) : ws ≠ [] := by
  intro hnil
  have := h.1
  rw [hnil] at this
  simp at this
  omega

theorem Live.mono {ws : List Int} {n m : Nat} (h : Live ws n) (hm : m ≤ n) : Live ws m :=
  ⟨le_trans hm h.1, h.2⟩

theorem head?_append_some {α : Type} (l1 l2 : List α) (a : α) (h : l1.head? = some a) :
    (l1 ++ l2).head? = some a := by
  cases l1 with
  | nil => simp at h
  | cons x xs => simpa using h

theorem prompt_msg_ne_nil : prompt_msg ≠ [] := by decide

theorem invalid_msg_ne_nil : invalid_msg ≠ [] := by decide

/-- A run of the loop of `ask_overwrite` on standard input holding results
`junk` that are no answers, then a result `t` that decides `v`, with a standard
output that is live for the prompts and messages to write. -/
theorem ask_overwrite_loop_run (t : ReadRes) (v : Int) (ht : decision t = some v)
    (more : List ReadRes) :
    ∀ (junk : List ReadRes) (w : World) (n : Nat) (R : Run Int),
      R = ask_overwrite_loop (junk ++ t :: more) w →
      (∀ j ∈ junk, decision j = none) →
      Live (w.writes STDOUT_FILENO) n →
      (junk.length + 1) * 108 + junk.length * 40 ≤ n →
      R.ret = some v ∧
      List.countP (is_read_on STDIN_FILENO) R.trace = junk.length + 1 ∧
      List.countP (is_write_of STDOUT_FILENO prompt_msg) R.trace = junk.length + 1 ∧
      List.countP (is_write_of STDOUT_FILENO invalid_msg) R.trace = junk.length ∧
      R.world.reads STDIN_FILENO = more ∧
      R.world.opens = w.opens ∧
      Live (R.world.writes STDOUT_FILENO)
        (n - ((junk.length + 1) * 108 + junk.length * 40)) ∧
      (∀ fd, fd ≠ STDOUT_FILENO → R.world.writes fd = w.writes fd) ∧
      (∀ fd, fd ≠ STDIN_FILENO → R.world.reads fd = w.reads fd) ∧
      (∀ e ∈ R.trace, (∃ p r, e = Event.write STDOUT_FILENO p r) ∨
        ∃ r, e = Event.read STDIN_FILENO 1 r) ∧
      (∃ r, R.trace.head? = some (Event.write STDOUT_FILENO prompt_msg r)) := by
  intro junk
  induction junk with
  | nil =>
    intro w n R hR _ hl hn
    simp only [List.length_nil, zero_add, one_mul, zero_mul, add_zero] at hn ⊢
    obtain ⟨hp, hl1⟩ := write_str_live STDOUT_FILENO prompt_msg w n hl
      (by rw [prompt_msg_length]; exact hn)
    rw [prompt_msg_length] at hl1
    have hne : w.writes STDOUT_FILENO ≠ [] := hl.ne_nil (by omega)
    obtain ⟨r0, rest0, hw0⟩ := List.exists_cons_of_ne_nil hne
    rw [List.nil_append, ask_overwrite_loop_decided t more w v hp ht] at hR
    subst hR
    refine ⟨rfl, ?_, ?_, ?_, ?_, ?_, hl1, ?_, ?_, ?_, ?_⟩
    · simp [List.countP_append, write_str_count_read, is_read_on]
    · simp [List.countP_append, write_str_count_self _ _ _ hl.2 hne prompt_msg_ne_nil,
        is_write_of]
    · simp [List.countP_append,
        write_str_count_other _ _ _ _ hl.2 prompt_drop_ne_invalid, is_write_of]
    · simp
    · exact write_str_opens _ _ _
    · intro fd hfd
      exact write_str_writes_ne _ _ _ _ hfd
    · intro fd hfd
      simp only [Function.update_noteq hfd]
      rw [write_str_reads]
    · intro e he
      simp only [List.mem_append, List.mem_singleton] at he
      rcases he with he | he
      · exact Or.inl (write_str_events _ _ _ e he)
      · exact Or.inr ⟨t, he⟩
    · exact ⟨r0, head?_append_some _ _ _ (write_str_head _ _ _ r0 rest0 hw0 (by decide))⟩
  | cons j junk ih =>
    intro w n R hR hj hl hn
    simp only [List.length_cons] at hn ⊢
    have hjd : decision j = none := hj j (List.mem_cons_self _ _)
    obtain ⟨hp, hl1⟩ := write_str_live STDOUT_FILENO prompt_msg w n hl
      (by rw [prompt_msg_length]; omega)
    rw [prompt_msg_length] at hl1
    have hne : w.writes STDOUT_FILENO ≠ [] := hl.ne_nil (by omega)
    obtain ⟨r0, rest0, hw0⟩ := List.exists_cons_of_ne_nil hne
    rw [List.cons_append, ask_overwrite_loop_invalid j _ w hp hjd] at hR
    set w2 : World := World.mk (write_str STDOUT_FILENO prompt_msg w).world.opens (Function.update (write_str STDOUT_FILENO prompt_msg w).world.reads STDIN_FILENO (junk ++ t :: more)) (write_str STDOUT_FILENO prompt_msg w).world.writes with hw2
    have hl2 : Live (w2.writes STDOUT_FILENO) (n - 108) := hl1
    obtain ⟨hq, hl3⟩ := write_str_live STDOUT_FILENO invalid_msg w2 (n - 108) hl2
      (by rw [invalid_msg_length]; omega)
    rw [invalid_msg_length] at hl3
    rw [andThen_some _ _ () hq] at hR
    obtain ⟨i1, i2, i3, i4, i5, i6, i7, i8, i9, i10, -⟩ :=
      ih (write_str STDOUT_FILENO invalid_msg w2).world (n - 108 - 40) _ rfl
        (fun x hx => hj x (List.mem_cons_of_mem _ hx)) hl3 (by omega)
    subst hR
    refine ⟨i1, ?_, ?_, ?_, i5, ?_, ?_, ?_, ?_, ?_, ?_⟩
    · simp only [List.countP_append, List.countP_cons, write_str_count_read, i2]
      simp [is_read_on]
    · simp only [List.countP_append, List.countP_cons, i3,
        write_str_count_self _ _ _ hl.2 hne prompt_msg_ne_nil,
        write_str_count_other _ _ _ _ hl2.2 invalid_drop_ne_prompt]
      simp [is_write_of]; omega
    · simp only [List.countP_append, List.countP_cons, i4,
        write_str_count_self _ _ _ hl2.2 (hl2.ne_nil (by omega)) invalid_msg_ne_nil,
        write_str_count_other _ _ _ _ hl.2 prompt_drop_ne_invalid]
      simp [is_write_of]; omega
    · rw [i6, write_str_opens]
      exact write_str_opens _ _ _
    · refine i7.mono ?_
      omega
    · intro fd hfd
      rw [i8 fd hfd, write_str_writes_ne _ _ _ _ hfd]
      exact write_str_writes_ne _ _ _ _ hfd
    · intro fd hfd
      rw [i9 fd hfd, write_str_reads]
      simp only [hw2, Function.update_noteq hfd]
      rw [write_str_reads]
    · intro e he
      simp only [List.mem_append, List.mem_cons] at he
      rcases he with he | he | he | he
      · exact Or.inl (write_str_events _ _ _ e he)
      · exact Or.inr ⟨j, he⟩
      · exact Or.inl (write_str_events _ _ _ e he)
      · exact i10 e he
    · exact ⟨r0, head?_append_some _ _ _ (write_str_head _ _ _ r0 rest0 hw0 (by decide))⟩

theorem decision_invalid_char (c : Char)
    (hc : c ≠ 'y' ∧ c ≠ 'Y' ∧ c ≠ 'n' ∧ c ≠ 'N') : decision (ReadRes.data [c]) = none := by
  obtain ⟨h1, h2, h3, h4⟩ := hc
  simp [decision, ReadRes.ret, ReadRes.bytes, h1, h2, h3, h4]

theorem decision_yes (a : Char) (ha : a = 'y' ∨ a = 'Y') :
    decision (ReadRes.data [a]) = some 1 := by
  rcases ha with rfl | rfl <;> decide

theorem decision_no (a : Char) (ha : a = 'n' ∨ a = 'N') :
    decision (ReadRes.data [a]) = some 0 := by
  rcases ha with rfl | rfl <;> decide

theorem decision_eof : decision (ReadRes.data []) = some 0 := by decide

theorem decision_fail : decision ReadRes.fail = some 0 := by decide

theorem write_str_nil_writes (fd : Int) (msg : List Byte) (w : World) (hmsg : msg ≠ [])
    (hw : w.writes fd = []) :
    (write_str fd msg w).ret = none ∧ (write_str fd msg w).trace = [] := by
  have h : (0 : Int) < (msg.length : Int) := by
    have := List.length_pos.mpr hmsg
    omega
  constructor
  · rw [write_str_ret, write_all_ret, hw, write_all_loop_nil]; simp [h]
  · rw [write_str_trace, hw, write_all_loop_nil]; simp [h]

theorem ask_overwrite_loop_nil (w : World) :
    ask_overwrite_loop [] w =
      { ret := none, trace := (write_str STDOUT_FILENO prompt_msg w).trace,
        world := (write_str STDOUT_FILENO prompt_msg w).world } := by
  rw [ask_overwrite_loop]
  cases h : (write_str STDOUT_FILENO prompt_msg w).ret with
  | none => rw [andThen_none _ _ h]
  | some a => rw [andThen_some _ _ a h]; simp

theorem ask_overwrite_loop_blocked (r : ReadRes) (rs : List ReadRes) (w : World)
    (hp : (write_str STDOUT_FILENO prompt_msg w).ret = none) :
    ask_overwrite_loop (r :: rs) w =
      { ret := none, trace := (write_str STDOUT_FILENO prompt_msg w).trace,
        world := (write_str STDOUT_FILENO prompt_msg w).world } := by
  rw [ask_overwrite_loop, andThen_none _ _ hp]

/-- Every call of the loop of `ask_overwrite` is a `write` on standard output
or a `read` of one character on standard input; it leaves the results of the
`open` calls untouched. -/
theorem ask_overwrite_loop_events :
    ∀ (rs : List ReadRes) (w : World),
      (∀ e ∈ (ask_overwrite_loop rs w).trace, AskEv e) ∧
      (ask_overwrite_loop rs w).world.opens = w.opens ∧
      (∀ fd, fd ≠ STDOUT_FILENO → (ask_overwrite_loop rs w).world.writes fd = w.writes fd) := by
  intro rs
  induction rs with
  | nil =>
    intro w
    rw [ask_overwrite_loop_nil]
    exact ⟨fun e he => Or.inl (write_str_events _ _ _ e he), write_str_opens _ _ _,
      fun fd hfd => write_str_writes_ne _ _ _ _ hfd⟩
  | cons r rs ih =>
    intro w
    cases hp : (write_str STDOUT_FILENO prompt_msg w).ret with
    | none =>
      rw [ask_overwrite_loop_blocked r rs w hp]
      exact ⟨fun e he => Or.inl (write_str_events _ _ _ e he), write_str_opens _ _ _,
        fun fd hfd => write_str_writes_ne _ _ _ _ hfd⟩
    | some u =>
      cases hd : decision r with
      | some v =>
        rw [ask_overwrite_loop_decided r rs w v hp hd]
        refine ⟨?_, write_str_opens _ _ _, fun fd hfd => write_str_writes_ne _ _ _ _ hfd⟩
        intro e he
        simp only [List.mem_append, List.mem_singleton] at he
        rcases he with he | he
        · exact Or.inl (write_str_events _ _ _ e he)
        · exact Or.inr ⟨r, he⟩
      | none =>
        rw [ask_overwrite_loop_invalid r rs w hp hd]
        set w2 : World := World.mk (write_str STDOUT_FILENO prompt_msg w).world.opens (Function.update (write_str STDOUT_FILENO prompt_msg w).world.reads STDIN_FILENO rs) (write_str STDOUT_FILENO prompt_msg w).world.writes with hw2
        have hw2o : w2.opens = w.opens := write_str_opens _ _ _
        have hw2w : ∀ fd, fd ≠ STDOUT_FILENO → w2.writes fd = w.writes fd :=
          fun fd hfd => write_str_writes_ne _ _ _ _ hfd
        cases hq : (write_str STDOUT_FILENO invalid_msg w2).ret with
        | none =>
          rw [andThen_none _ _ hq]
          refine ⟨?_, ?_, ?_⟩
          · intro e he
            simp only [List.mem_append, List.mem_cons] at he
            rcases he with he | he | he
            · exact Or.inl (write_str_events _ _ _ e he)
            · exact Or.inr ⟨r, he⟩
            · exact Or.inl (write_str_events _ _ _ e he)
          · simp only; rw [write_str_opens, hw2o]
          · intro fd hfd
            simp only; rw [write_str_writes_ne _ _ _ _ hfd, hw2w fd hfd]
        | some u2 =>
          rw [andThen_some _ _ u2 hq]
          obtain ⟨i1, i2, i3⟩ := ih (write_str STDOUT_FILENO invalid_msg w2).world
          refine ⟨?_, ?_, ?_⟩
          · intro e he
            simp only [List.mem_append, List.mem_cons] at he
            rcases he with he | he | he | he
            · exact Or.inl (write_str_events _ _ _ e he)
            · exact Or.inr ⟨r, he⟩
            · exact Or.inl (write_str_events _ _ _ e he)
            · exact i1 e he
          · simp only; rw [i2, write_str_opens, hw2o]
          · intro fd hfd
            simp only; rw [i3 fd hfd, write_str_writes_ne _ _ _ _ hfd, hw2w fd hfd]

/-- The first call of the loop of `ask_overwrite` passes the whole prompt to
standard output; when standard output does not answer, no call returns. -/
theorem ask_overwrite_loop_head (rs : List ReadRes) (w : World) :
    (∀ r ws, w.writes STDOUT_FILENO = r :: ws →
      (ask_overwrite_loop rs w).trace.head? =
        some (Event.write STDOUT_FILENO prompt_msg r)) ∧
    (w.writes STDOUT_FILENO = [] →
      (ask_overwrite_loop rs w).ret = none ∧ (ask_overwrite_loop rs w).trace = []) := by
  have key : ∃ tl, (ask_overwrite_loop rs w).trace =
      (write_str STDOUT_FILENO prompt_msg w).trace ++ tl ∧
      ((write_str STDOUT_FILENO prompt_msg w).ret = none →
        (ask_overwrite_loop rs w).ret = none ∧ tl = []) := by
    cases rs with
    | nil => rw [ask_overwrite_loop_nil]; exact ⟨[], by simp, fun _ => ⟨rfl, rfl⟩⟩
    | cons r rs =>
      cases hp : (write_str STDOUT_FILENO prompt_msg w).ret with
      | none =>
        rw [ask_overwrite_loop_blocked r rs w hp]
        exact ⟨[], by simp, fun _ => ⟨rfl, rfl⟩⟩
      | some u =>
        cases hd : decision r with
        | some v =>
          rw [ask_overwrite_loop_decided r rs w v hp hd]
          exact ⟨_, rfl, fun h => by simp at h⟩
        | none =>
          rw [ask_overwrite_loop_invalid r rs w hp hd]
          exact ⟨_, rfl, fun h => by simp at h⟩
  obtain ⟨tl, htl, hnone⟩ := key
  constructor
  · intro r ws hw
    rw [htl]
    exact head?_append_some _ _ _ (write_str_head _ _ _ r ws hw prompt_msg_ne_nil)
  · intro hw
    obtain ⟨h1, h2⟩ := write_str_nil_writes _ _ w prompt_msg_ne_nil hw
    obtain ⟨h3, h4⟩ := hnone h1
    exact ⟨h3, by rw [htl, h2, h4]; rfl⟩

/-- The loop of `ask_overwrite` returns `0` or `1`. -/
theorem ask_overwrite_loop_ret :
    ∀ (rs : List ReadRes) (w : World) (v : Int),
      (ask_overwrite_loop rs w).ret = some v → v = 0 ∨ v = 1 := by
  intro rs
  induction rs with
  | nil =>
    intro w v h
    rw [ask_overwrite_loop_nil] at h
    simp at h
  | cons r rs ih =>
    intro w v h
    cases hp : (write_str STDOUT_FILENO prompt_msg w).ret with
    | none =>
      rw [ask_overwrite_loop_blocked r rs w hp] at h
      simp at h
    | some u =>
      cases hd : decision r with
      | some v1 =>
        rw [ask_overwrite_loop_decided r rs w v1 hp hd] at h
        simp only [Option.some.injEq] at h
        subst h
        unfold decision at hd
        split_ifs at hd <;> cases hd <;> simp
      | none =>
        rw [ask_overwrite_loop_invalid r rs w hp hd] at h
        simp only at h
        set w2 : World := World.mk (write_str STDOUT_FILENO prompt_msg w).world.opens (Function.update (write_str STDOUT_FILENO prompt_msg w).world.reads STDIN_FILENO rs) (write_str STDOUT_FILENO prompt_msg w).world.writes with hw2
        cases hq : (write_str STDOUT_FILENO invalid_msg w2).ret with
        | none => rw [andThen_none _ _ hq] at h; simp at h
        | some u2 =>
          rw [andThen_some _ _ u2 hq] at h
          exact ih _ v h

theorem write_all_events (fd : Int) (buf : List Byte) (count : Int) (w : World) (e : Event)
    (he : e ∈ (write_all fd buf count w).trace) : ∃ p r, e = Event.write fd p r :=
  write_all_loop_events fd buf count _ _ e he

theorem write_all_ret_cases (fd : Int) (buf : List Byte) (count : Int) (w : World) :
    (write_all fd buf count w).ret = none ∨ (write_all fd buf count w).ret = some 0 ∨
      (write_all fd buf count w).ret = some (-1) :=
  write_all_loop_ret fd buf count _ _

theorem write_all_neg (fd : Int) (buf : List Byte) (count : Int) (w : World) :
    (write_all fd buf count w).ret = some (-1) ↔
      ∃ p r, Event.write fd p r ∈ (write_all fd buf count w).trace ∧ r < 0 := by
  rw [write_all_ret, write_all_trace, write_all_loop_neg]
  constructor
  · rintro ⟨e, he, g, p, r, heq, hr⟩
    obtain ⟨p1, r1, h1⟩ := write_all_loop_events fd buf count _ _ e he
    rw [h1] at heq he
    cases heq
    exact ⟨_, _, he, hr⟩
  · rintro ⟨p, r, he, hr⟩
    exact ⟨_, he, fd, p, r, rfl, hr⟩

/-- The calls and the return value of the copy loop: every call is a `read` of
`BUF_SIZE` bytes on the source, a `write` on the destination or a `write` on
the error stream; the value returned is `0` or `-1`, and it is `-1` exactly
when a `read` or a `write` on the destination returned a negative result. -/
theorem copy_file_loop_spec (s d : Int) :
    ∀ (rs : List ReadRes) (w : World),
      (∀ e ∈ (copy_file_loop s d rs w).trace, CopyEv s d e) ∧
      (copy_file_loop s d rs w).world.opens = w.opens ∧
      (∀ c, (copy_file_loop s d rs w).ret = some c →
        (c = 0 ∨ c = -1) ∧
        (c = -1 ↔
          (∃ g n res, Event.read g n res ∈ (copy_file_loop s d rs w).trace ∧ res.ret < 0) ∨
          (∃ p r, Event.write d p r ∈ (copy_file_loop s d rs w).trace ∧ r < 0))) := by
  intro rs
  induction rs with
  | nil =>
    intro w
    simp [copy_file_loop]
  | cons r rs ih =>
    intro w
    rw [copy_file_loop_cons, andThen_some _ _ r.ret rfl]
    simp only
    set w1 : World := World.mk w.opens (Function.update w.reads s rs) w.writes with hw1
    have hrd : CopyEv s d (Event.read s BUF_SIZE r) := Or.inl ⟨r, rfl⟩
    by_cases hpos : r.ret > 0
    · simp only [hpos, if_true]
      have hwaev : ∀ e ∈ (write_all d r.bytes r.ret w1).trace, CopyEv s d e := by
        intro e he
        obtain ⟨p, q, h⟩ := write_all_events _ _ _ _ e he
        exact Or.inr (Or.inl ⟨p, q, h⟩)
      rcases write_all_ret_cases d r.bytes r.ret w1 with hwa | hwa | hwa
      · rw [andThen_none _ _ hwa]
        refine ⟨?_, rfl, ?_⟩
        · intro e he
          simp only [List.singleton_append, List.mem_cons] at he
          rcases he with he | he
          · rw [he]; exact hrd
          · exact hwaev e he
        · intro c hc; simp at hc
      · rw [andThen_some _ _ 0 hwa]
        simp only [lt_irrefl, if_false]
        obtain ⟨i1, i2, i3⟩ := ih (write_all d r.bytes r.ret w1).world
        have hnoneg : ¬ ∃ p q, Event.write d p q ∈ (write_all d r.bytes r.ret w1).trace ∧ q < 0 := by
          intro h
          have := (write_all_neg d r.bytes r.ret w1).mpr h
          rw [hwa] at this
          simp at this
        refine ⟨?_, ?_, ?_⟩
        · intro e he
          simp only [List.singleton_append, List.mem_cons, List.mem_append] at he
          rcases he with he | he | he
          · rw [he]; exact hrd
          · exact hwaev e he
          · exact i1 e he
        · rw [i2]; rfl
        · intro c hc
          obtain ⟨j1, j2⟩ := i3 c hc
          refine ⟨j1, ?_⟩
          rw [j2]
          constructor
          · rintro (⟨g, n, res, hm, hneg⟩ | ⟨p, q, hm, hneg⟩)
            · exact Or.inl ⟨g, n, res, by simp [hm], hneg⟩
            · exact Or.inr ⟨p, q, by simp [hm], hneg⟩
          · rintro (⟨g, n, res, hm, hneg⟩ | ⟨p, q, hm, hneg⟩)
            · simp only [List.singleton_append, List.mem_cons, List.mem_append] at hm
              rcases hm with hm | hm | hm
              · cases hm; omega
              · obtain ⟨p1, q1, h1⟩ := write_all_events _ _ _ _ _ hm
                cases h1
              · exact Or.inl ⟨g, n, res, hm, hneg⟩
            · simp only [List.singleton_append, List.mem_cons, List.mem_append] at hm
              rcases hm with hm | hm | hm
              · cases hm
              · exact absurd ⟨p, q, hm, hneg⟩ hnoneg
              · exact Or.inr ⟨p, q, hm, hneg⟩
      · rw [andThen_some _ _ (-1) hwa]
        simp only [show ((-1 : Int) < 0) from by omega, if_true, andThen_done_ret,
          andThen_done_trace]
        obtain ⟨p, q, hm, hneg⟩ := (write_all_neg d r.bytes r.ret w1).mp hwa
        refine ⟨?_, ?_, ?_⟩
        · intro e he
          simp only [List.singleton_append, List.mem_cons, List.mem_append] at he
          rcases he with he | he | he
          · rw [he]; exact hrd
          · exact hwaev e he
          · obtain ⟨p1, q1, h1⟩ := write_str_events _ _ _ e he
            exact Or.inr (Or.inr ⟨p1, q1, h1⟩)
        · cases hq : (write_str STDERR_FILENO write_err_msg (write_all d r.bytes r.ret w1).world).ret with
          | none => rw [andThen_none _ _ hq, write_str_opens]; rfl
          | some u => rw [andThen_some _ _ u hq]; simp only [Run.done]; rw [write_str_opens]; rfl
        · intro c hc
          cases hq : (write_str STDERR_FILENO write_err_msg (write_all d r.bytes r.ret w1).world).ret with
          | none => rw [hq] at hc; simp at hc
          | some u =>
            rw [hq] at hc
            simp only [Option.map_some', Option.some.injEq] at hc
            subst hc
            refine ⟨Or.inr rfl, ?_⟩
            simp only [true_iff]
            exact Or.inr ⟨p, q, by simp [hm], hneg⟩
    · simp only [hpos, if_false]
      by_cases hneg : r.ret < 0
      · simp only [hneg, if_true, andThen_done_ret, andThen_done_trace]
        refine ⟨?_, ?_, ?_⟩
        · intro e he
          simp only [List.singleton_append, List.mem_cons] at he
          rcases he with he | he
          · rw [he]; exact hrd
          · obtain ⟨p1, q1, h1⟩ := write_str_events _ _ _ e he
            exact Or.inr (Or.inr ⟨p1, q1, h1⟩)
        · cases hq : (write_str STDERR_FILENO read_err_msg w1).ret with
          | none => rw [andThen_none _ _ hq, write_str_opens]
          | some u => rw [andThen_some _ _ u hq]; simp only [Run.done]; rw [write_str_opens]
        · intro c hc
          cases hq : (write_str STDERR_FILENO read_err_msg w1).ret with
          | none => rw [hq] at hc; simp at hc
          | some u =>
            rw [hq] at hc
            simp only [Option.map_some', Option.some.injEq] at hc
            subst hc
            refine ⟨Or.inr rfl, ?_⟩
            simp only [true_iff]
            exact Or.inl ⟨s, BUF_SIZE, r, by simp, hneg⟩
      · simp only [hneg, if_false, Run.done, List.append_nil]
        refine ⟨?_, trivial, ?_⟩
        · intro e he
          simp only [List.mem_singleton] at he
          rw [he]; exact hrd
        · intro c hc
          simp only [Option.some.injEq] at hc
          subst hc
          refine ⟨Or.inl rfl, ?_⟩
          constructor
          · intro h; omega
          · rintro (⟨g, n, res, hm, hn⟩ | ⟨p, q, hm, hn⟩)
            · simp only [List.mem_singleton] at hm
              cases hm; omega
            · simp only [List.mem_singleton] at hm
              cases hm

theorem file_exists_cons (path : String) (w : World) (p : Int) (rest : List Int)
    (hop : w.opens = p :: rest) :
    file_exists path w =
      if 0 ≤ p then
        { ret := some 1, trace := [Event.open_ path OpenFlags.O_RDONLY p, Event.close p],
          world := { w with opens := rest } }
      else
        { ret := some 0, trace := [Event.open_ path OpenFlags.O_RDONLY p],
          world := { w with opens := rest } } := by
  rw [file_exists, sys_open_cons _ _ _ _ _ hop, andThen_some _ _ p rfl]
  by_cases hp : 0 ≤ p
  · simp [hp, Run.andThen, sys_close, Run.done]
  · simp [hp, Run.done]

theorem file_exists_nil (path : String) (w : World) (hop : w.opens = []) :
    (file_exists path w).ret = none := by
  rw [file_exists, sys_open_nil _ _ _ hop, andThen_none _ _ rfl]

/-- The part of `main` that follows the two read-only `open` calls, when the
source was opened (`0 <= s`) and the probe of the destination returned `p`. -/
theorem main_after_probe (prog src dst : String) (w : World) (s p : Int) (rest : List Int)
    (hop : w.opens = s :: p :: rest) (hs : 0 ≤ s) :
    main [prog, src, dst] w =
      if 0 ≤ p then
        { ret := ((ask_overwrite dst { w with opens := rest }).andThen fun ans w3 =>
              if ans = 0 then
                (write_str STDOUT_FILENO cancel_msg w3).andThen fun _ w4 =>
                  (sys_close s w4).andThen fun _ w5 => Run.done 0 w5
              else main_copy s dst w3).ret,
          trace := [Event.open_ src OpenFlags.O_RDONLY s,
              Event.open_ dst OpenFlags.O_RDONLY p, Event.close p] ++
            ((ask_overwrite dst { w with opens := rest }).andThen fun ans w3 =>
              if ans = 0 then
                (write_str STDOUT_FILENO cancel_msg w3).andThen fun _ w4 =>
                  (sys_close s w4).andThen fun _ w5 => Run.done 0 w5
              else main_copy s dst w3).trace,
          world := ((ask_overwrite dst { w with opens := rest }).andThen fun ans w3 =>
              if ans = 0 then
                (write_str STDOUT_FILENO cancel_msg w3).andThen fun _ w4 =>
                  (sys_close s w4).andThen fun _ w5 => Run.done 0 w5
              else main_copy s dst w3).world }
      else
        { ret := (main_copy s dst { w with opens := rest }).ret,
          trace := [Event.open_ src OpenFlags.O_RDONLY s,
              Event.open_ dst OpenFlags.O_RDONLY p] ++
            (main_copy s dst { w with opens := rest }).trace,
          world := (main_copy s dst { w with opens := rest }).world } := by
  rw [main_three, sys_open_cons _ _ _ _ _ hop, andThen_some _ _ s rfl]
  have hs' : ¬ s < 0 := by omega
  simp only [hs', if_false]
  rw [file_exists_cons dst _ p rest rfl]
  by_cases hp : 0 ≤ p
  · simp only [hp, if_true]
    rw [andThen_some _ _ 1 rfl]
    simp
  · simp only [hp, if_false]
    rw [andThen_some _ _ 0 rfl]
    simp

theorem main_blocked_open (prog src dst : String) (w : World) (hop : w.opens = []) :
    (main [prog, src, dst] w).ret = none := by
  rw [main_three, sys_open_nil _ _ _ hop, andThen_none _ _ rfl]

theorem main_blocked_probe (prog src dst : String) (w : World) (s : Int)
    (hop : w.opens = [s]) (hs : 0 ≤ s) :
    (main [prog, src, dst] w).ret = none := by
  rw [main_three, sys_open_cons _ _ _ _ _ hop, andThen_some _ _ s rfl]
  have hs' : ¬ s < 0 := by omega
  simp only [hs', if_false]
  rw [andThen_none _ _ (file_exists_nil _ _ rfl)]

/-- A terminating run of lines 128-148 of `main`: either the create/truncate
`open` failed, the message went to the error stream and the source was closed;
or it succeeded, `copy_file` ran and both descriptors were closed. -/
theorem main_copy_ret (s : Int) (dst : String) (w : World) (r : Int)
    (h : (main_copy s dst w).ret = some r) :
    ∃ d,
      (d < 0 ∧ r = 1 ∧ ∃ er,
        (main_copy s dst w).trace =
          Event.open_ dst OpenFlags.O_WRONLY_CREAT_TRUNC d :: (er ++ [Event.close s]) ∧
        ∀ e ∈ er, ∃ p q, e = Event.write STDERR_FILENO p q) ∨
      (0 ≤ d ∧ ∃ cp c,
        (main_copy s dst w).trace =
          Event.open_ dst OpenFlags.O_WRONLY_CREAT_TRUNC d ::
            (cp ++ [Event.close s, Event.close d]) ∧
        (∀ e ∈ cp, CopyEv s d e) ∧ (c = 0 ∨ c = -1) ∧
        (c = -1 ↔
          (∃ g n res, Event.read g n res ∈ cp ∧ res.ret < 0) ∨
          (∃ p q, Event.write d p q ∈ cp ∧ q < 0)) ∧
        r = if c < 0 then 1 else 0) := by
  cases hop : w.opens with
  | nil =>
    rw [main_copy, sys_open_nil _ _ _ hop, andThen_none _ _ rfl] at h
    simp at h
  | cons d rest =>
    refine ⟨d, ?_⟩
    rw [main_copy, sys_open_cons _ _ _ _ _ hop, andThen_some _ _ d rfl] at h ⊢
    by_cases hd : d < 0
    · left
      simp only [hd, if_true] at h ⊢
      cases hq : (write_str STDERR_FILENO dst_err_msg { w with opens := rest }).ret with
      | none => rw [andThen_none _ _ hq] at h; simp at h
      | some u =>
        rw [andThen_some _ _ u hq] at h ⊢
        simp only [Run.andThen, sys_close, Run.done, Option.some.injEq] at h ⊢
        refine ⟨trivial, h.symm,
          (write_str STDERR_FILENO dst_err_msg { w with opens := rest }).trace, ?_,
          fun e he => write_str_events _ _ _ e he⟩
        simp
    · right
      simp only [hd, if_false] at h ⊢
      have hd' : 0 ≤ d := by omega
      refine ⟨hd', ?_⟩
      cases hq : (copy_file s d { w with opens := rest }).ret with
      | none => rw [andThen_none _ _ hq] at h; simp at h
      | some c =>
        obtain ⟨k1, -, k3⟩ := copy_file_loop_spec s d
          (({ w with opens := rest } : World).reads s) { w with opens := rest }
        obtain ⟨j1, j2⟩ := k3 c hq
        rw [andThen_some _ _ c hq] at h ⊢
        refine ⟨(copy_file s d { w with opens := rest }).trace, c, ?_, k1, j1, j2, ?_⟩
        · by_cases hc : c < 0 <;> simp [hc, Run.andThen, sys_close, Run.done]
        · by_cases hc : c < 0
          · simp only [hc, if_true, Run.andThen, sys_close, Run.done, Option.some.injEq] at h ⊢
            exact h.symm
          · simp only [hc, if_false, Run.andThen, sys_close, Run.done, Option.some.injEq] at h ⊢
            exact h.symm

theorem length_three {α : Type} (l : List α) (h : l.length = 3) :
    ∃ a b c, l = [a, b, c] := by
  match l, h with
  | [a, b, c], _ => exact ⟨a, b, c, rfl⟩

/-- The shapes of the terminating runs of `main`: usage error; source `open`
failure; or, after the two read-only `open` calls (and the dialogue when the
probe succeeded), a cancellation, a failure of the create/truncate `open`, or a
copy followed by the two `close` calls. -/
theorem main_ret_shape (argv : List String) (w : World) (r : Int)
    (h : (main argv w).ret = some r) :
    (argv.length ≠ 3 ∧ r = 1 ∧
      ∀ e ∈ (main argv w).trace, ∃ p q, e = Event.write STDERR_FILENO p q) ∨
    ∃ prog src dst s, argv = [prog, src, dst] ∧
      ((s < 0 ∧ r = 1 ∧ ∃ er,
          (main argv w).trace = Event.open_ src OpenFlags.O_RDONLY s :: er ∧
          ∀ e ∈ er, ∃ p q, e = Event.write STDERR_FILENO p q) ∨
       (0 ≤ s ∧ ∃ pre,
          ((∃ p, p < 0 ∧
              pre = [Event.open_ src OpenFlags.O_RDONLY s,
                Event.open_ dst OpenFlags.O_RDONLY p]) ∨
           (∃ p ask, 0 ≤ p ∧
              pre = Event.open_ src OpenFlags.O_RDONLY s ::
                Event.open_ dst OpenFlags.O_RDONLY p :: Event.close p :: ask ∧
              ∀ e ∈ ask, AskEv e)) ∧
          ((r = 0 ∧ ∃ tl, (main argv w).trace = pre ++ (tl ++ [Event.close s]) ∧
              ∀ e ∈ tl, ∃ p q, e = Event.write STDOUT_FILENO p q) ∨
           (∃ d, d < 0 ∧ r = 1 ∧ ∃ er,
              (main argv w).trace =
                pre ++ Event.open_ dst OpenFlags.O_WRONLY_CREAT_TRUNC d ::
                  (er ++ [Event.close s]) ∧
              ∀ e ∈ er, ∃ p q, e = Event.write STDERR_FILENO p q) ∨
           (∃ d cp c, 0 ≤ d ∧
              (main argv w).trace =
                pre ++ Event.open_ dst OpenFlags.O_WRONLY_CREAT_TRUNC d ::
                  (cp ++ [Event.close s, Event.close d]) ∧
              (∀ e ∈ cp, CopyEv s d e) ∧ (c = 0 ∨ c = -1) ∧
              (c = -1 ↔
                (∃ g n res, Event.read g n res ∈ cp ∧ res.ret < 0) ∨
                (∃ p q, Event.write d p q ∈ cp ∧ q < 0)) ∧
              r = if c < 0 then 1 else 0)))) := by
  by_cases hlen : argv.length ≠ 3
  · left
    rw [main_usage argv w hlen, andThen_done_ret] at h
    rw [main_usage argv w hlen, andThen_done_trace]
    refine ⟨hlen, ?_, fun e he => write_str_events _ _ _ e he⟩
    cases hq : (write_str STDERR_FILENO usage_msg w).ret with
    | none => rw [hq] at h; simp at h
    | some u => rw [hq] at h; simp at h; exact h.symm
  · right
    obtain ⟨prog, src, dst, rfl⟩ := length_three argv (not_not.mp hlen)
    cases hop : w.opens with
    | nil => rw [main_blocked_open _ _ _ _ hop] at h; simp at h
    | cons s o1 =>
      refine ⟨prog, src, dst, s, rfl, ?_⟩
      by_cases hs : s < 0
      · left
        rw [main_three, sys_open_cons _ _ _ _ _ hop, andThen_some _ _ s rfl] at h ⊢
        simp only [hs, if_true, andThen_done_ret, andThen_done_trace,
          List.singleton_append] at h ⊢
        refine ⟨trivial, ?_, (write_str STDERR_FILENO src_err_msg
          { w with opens := o1 }).trace, rfl, fun e he => write_str_events _ _ _ e he⟩
        cases hq : (write_str STDERR_FILENO src_err_msg { w with opens := o1 }).ret with
        | none => rw [hq] at h; simp at h
        | some u => rw [hq] at h; simp at h; exact h.symm
      · right
        have hs0 : 0 ≤ s := by omega
        refine ⟨hs0, ?_⟩
        cases o1 with
        | nil => rw [main_blocked_probe _ _ _ _ s hop hs0] at h; simp at h
        | cons p rest =>
          rw [main_after_probe prog src dst w s p rest hop hs0] at h ⊢
          by_cases hp : 0 ≤ p
          · simp only [hp, if_true] at h ⊢
            cases ha : (ask_overwrite dst { w with opens := rest }).ret with
            | none => rw [andThen_none _ _ ha] at h; simp at h
            | some ans =>
              have haev := (ask_overwrite_loop_events
                (({ w with opens := rest } : World).reads STDIN_FILENO)
                { w with opens := rest }).1
              rw [andThen_some _ _ ans ha] at h ⊢
              refine ⟨_, Or.inr ⟨p, (ask_overwrite dst { w with opens := rest }).trace,
                hp, rfl, haev⟩, ?_⟩
              by_cases hans : ans = 0
              · left
                simp only [hans, if_true] at h ⊢
                cases hq : (write_str STDOUT_FILENO cancel_msg
                    (ask_overwrite dst { w with opens := rest }).world).ret with
                | none => rw [andThen_none _ _ hq] at h; simp at h
                | some u =>
                  rw [andThen_some _ _ u hq] at h ⊢
                  simp only [Run.andThen, sys_close, Run.done, Option.some.injEq] at h ⊢
                  refine ⟨h.symm, (write_str STDOUT_FILENO cancel_msg
                    (ask_overwrite dst { w with opens := rest }).world).trace, ?_,
                    fun e he => write_str_events _ _ _ e he⟩
                  simp
              · right
                simp only [hans, if_false] at h ⊢
                obtain ⟨d, hd⟩ := main_copy_ret s dst _ r h
                rcases hd with ⟨hd, hr, er, htr, hev⟩ | ⟨hd, cp, c, htr, hev, hc, hiff, hr⟩
                · left
                  exact ⟨d, hd, hr, er, by rw [htr]; simp, hev⟩
                · right
                  exact ⟨d, cp, c, hd, by rw [htr]; simp, hev, hc, hiff, hr⟩
          · simp only [hp, if_false] at h ⊢
            refine ⟨_, Or.inl ⟨p, by omega, rfl⟩, ?_⟩
            right
            obtain ⟨d, hd⟩ := main_copy_ret s dst _ r h
            rcases hd with ⟨hd, hr, er, htr, hev⟩ | ⟨hd, cp, c, htr, hev, hc, hiff, hr⟩
            · left
              exact ⟨d, hd, hr, er, by rw [htr], hev⟩
            · right
              exact ⟨d, cp, c, hd, by rw [htr], hev, hc, hiff, hr⟩

theorem opened_filter (fd : Int) (tr : List Event) :
    opened fd (tr.filter is_oc) = opened fd tr := by
  induction tr with
  | nil => rfl
  | cons e es ih => cases e <;> simp [List.filter, is_oc, opened, ih]

theorem closed_filter (fd : Int) (tr : List Event) :
    closed fd (tr.filter is_oc) = closed fd tr := by
  induction tr with
  | nil => rfl
  | cons e es ih => cases e <;> simp [List.filter, is_oc, closed, ih]

theorem filter_take_eq {α : Type} (P : α → Bool) :
    ∀ (tr : List α) (n : Nat), ∃ m, (tr.take n).filter P = (tr.filter P).take m := by
  intro tr
  induction tr with
  | nil => intro n; exact ⟨0, by simp⟩
  | cons e es ih =>
    intro n
    cases n with
    | zero => exact ⟨0, by simp⟩
    | succ k =>
      obtain ⟨m, hm⟩ := ih k
      by_cases hP : P e = true
      · exact ⟨m + 1, by simp [List.filter, hP, hm]⟩
      · exact ⟨m, by simp [List.filter, hP, hm]⟩

/-- The balance of `open` and `close` calls of a run can be read on its `open`
and `close` calls alone. -/
theorem balanced_of_oc (tr L : List Event) (h : tr.filter is_oc = L)
    (hL : (∀ fd, closed fd L = opened fd L) ∧
      ∀ fd m, closed fd (L.take m) ≤ opened fd (L.take m)) :
    (∀ fd, closed fd tr = opened fd tr) ∧
      ∀ fd n, closed fd (tr.take n) ≤ opened fd (tr.take n) := by
  subst h
  constructor
  · intro fd
    rw [← closed_filter, ← opened_filter fd tr]
    exact hL.1 fd
  · intro fd n
    obtain ⟨m, hm⟩ := filter_take_eq is_oc tr n
    rw [← closed_filter, ← opened_filter fd (tr.take n), hm]
    exact hL.2 fd m

theorem filter_oc_write (fd : Int) (tl : List Event)
    (h : ∀ e ∈ tl, ∃ p q, e = Event.write fd p q) : tl.filter is_oc = [] := by
  rw [List.filter_eq_nil_iff]
  intro e he
  obtain ⟨p, q, rfl⟩ := h e he
  simp [is_oc]

theorem filter_oc_ask (tl : List Event) (h : ∀ e ∈ tl, AskEv e) : tl.filter is_oc = [] := by
  rw [List.filter_eq_nil_iff]
  intro e he
  rcases h e he with ⟨p, q, rfl⟩ | ⟨q, rfl⟩ <;> simp [is_oc]

theorem filter_oc_copy (s d : Int) (tl : List Event) (h : ∀ e ∈ tl, CopyEv s d e) :
    tl.filter is_oc = [] := by
  rw [List.filter_eq_nil_iff]
  intro e he
  rcases h e he with ⟨q, rfl⟩ | ⟨p, q, rfl⟩ | ⟨p, q, rfl⟩ <;> simp [is_oc]

/-- A list with a single element satisfying `P` splits around it in one way. -/
theorem split_unique (P : Event → Bool) :
    ∀ (A pre : List Event) (E e1 : Event) (B post : List Event),
      (∀ x ∈ A, P x = false) → (∀ x ∈ B, P x = false) → P e1 = true →
      pre ++ e1 :: post = A ++ E :: B → pre = A ∧ e1 = E ∧ post = B := by
  intro A
  induction A with
  | nil =>
    intro pre E e1 B post _ hB he h
    cases pre with
    | nil =>
      simp only [List.nil_append, List.cons.injEq] at h
      exact ⟨rfl, h.1, h.2⟩
    | cons x pre1 =>
      simp only [List.cons_append, List.nil_append, List.cons.injEq] at h
      have hmem : e1 ∈ B := by rw [← h.2]; simp
      rw [hB e1 hmem] at he
      cases he
  | cons a A1 ih =>
    intro pre E e1 B post hA hB he h
    cases pre with
    | nil =>
      simp only [List.nil_append, List.cons_append, List.cons.injEq] at h
      rw [h.1, hA a (List.mem_cons_self _ _)] at he
      cases he
    | cons x pre1 =>
      simp only [List.cons_append, List.cons.injEq] at h
      obtain ⟨h1, h2, h3⟩ := ih pre1 E e1 B post
        (fun y hy => hA y (List.mem_cons_of_mem _ hy)) hB he h.2
      exact ⟨by rw [h.1, h1], h2, h3⟩

theorem is_creat_write (fd : Int) (tl : List Event)
    (h : ∀ e ∈ tl, ∃ p q, e = Event.write fd p q) : ∀ e ∈ tl, is_creat e = false := by
  intro e he
  obtain ⟨p, q, rfl⟩ := h e he
  rfl

theorem is_creat_ask (tl : List Event) (h : ∀ e ∈ tl, AskEv e) :
    ∀ e ∈ tl, is_creat e = false := by
  intro e he
  rcases h e he with ⟨p, q, rfl⟩ | ⟨q, rfl⟩ <;> rfl

theorem is_creat_copy (s d : Int) (tl : List Event) (h : ∀ e ∈ tl, CopyEv s d e) :
    ∀ e ∈ tl, is_creat e = false := by
  intro e he
  rcases h e he with ⟨q, rfl⟩ | ⟨p, q, rfl⟩ | ⟨p, q, rfl⟩ <;> rfl

theorem is_creat_mem (tr : List Event) (path : String) (d : Int)
    (h : ∀ e ∈ tr, is_creat e = false) :
    Event.open_ path OpenFlags.O_WRONLY_CREAT_TRUNC d ∉ tr := by
  intro hm
  have := h _ hm
  simp [is_creat] at this

/-- The calls of `main` before the create/truncate `open`: the two read-only
`open` calls and, when the probe succeeded, its `close` and the dialogue.  None
is a create/truncate `open` or a `read` of `BUF_SIZE` bytes. -/
theorem probe_part_facts (src dst : String) (s : Int) (pre : List Event)
    (hpre : (∃ p, p < 0 ∧
        pre = [Event.open_ src OpenFlags.O_RDONLY s,
          Event.open_ dst OpenFlags.O_RDONLY p]) ∨
      (∃ p ask, 0 ≤ p ∧
        pre = Event.open_ src OpenFlags.O_RDONLY s ::
          Event.open_ dst OpenFlags.O_RDONLY p :: Event.close p :: ask ∧
        ∀ e ∈ ask, AskEv e)) :
    (∀ e ∈ pre, is_creat e = false) ∧
    (∀ fd res, Event.read fd BUF_SIZE res ∉ pre) ∧
    (∃ tl, pre = Event.open_ src OpenFlags.O_RDONLY s :: tl) := by
  rcases hpre with ⟨p, -, rfl⟩ | ⟨p, ask, -, rfl, hask⟩
  · refine ⟨?_, ?_, _, rfl⟩
    · intro e he
      simp only [List.mem_cons, List.mem_singleton, List.not_mem_nil, or_false] at he
      rcases he with rfl | rfl <;> rfl
    · intro fd res hm
      simp at hm
  · refine ⟨?_, ?_, _, rfl⟩
    · intro e he
      simp only [List.mem_cons] at he
      rcases he with rfl | rfl | rfl | he
      · rfl
      · rfl
      · rfl
      · exact is_creat_ask ask hask e he
    · intro fd res hm
      simp only [List.mem_cons, reduceCtorEq, false_or] at hm
      rcases hask _ hm with ⟨p1, q1, h1⟩ | ⟨q1, h1⟩
      · cases h1
      · simp only [Event.read.injEq] at h1
        have : BUF_SIZE = 1 := h1.2.1
        revert this; decide

theorem cancel_msg_length : cancel_msg.length = 37 := by decide

theorem cancel_msg_ne_nil : cancel_msg ≠ [] := by decide

theorem head?_some_cons {α : Type} (l : List α) (a : α) (h : l.head? = some a) :
    ∃ tl, l = a :: tl := by
  cases l with
  | nil => simp at h
  | cons x xs =>
    simp only [List.head?_cons, Option.some.injEq] at h
    exact ⟨xs, by rw [h]⟩

theorem main_copy_nil (s : Int) (dst : String) (w : World) (hop : w.opens = []) :
    (main_copy s dst w).trace = [] ∧ (main_copy s dst w).ret = none := by
  rw [main_copy, sys_open_nil _ _ _ hop, andThen_none _ _ rfl]
  exact ⟨rfl, rfl⟩

/-- The calls of lines 128-148 of `main`, whether the run terminates or not:
the create/truncate `open`, then calls of `copy_file`, writes on the error
stream and `close` calls. -/
theorem main_copy_events (s : Int) (dst : String) (w : World) (d : Int) (rest : List Int)
    (hop : w.opens = d :: rest) :
    ∃ tl, (main_copy s dst w).trace =
        Event.open_ dst OpenFlags.O_WRONLY_CREAT_TRUNC d :: tl ∧
      ∀ e ∈ tl, CopyEv s d e ∨ e = Event.close s ∨ e = Event.close d := by
  rw [main_copy, sys_open_cons _ _ _ _ _ hop, andThen_some _ _ d rfl]
  by_cases hd : d < 0
  · simp only [hd, if_true, List.singleton_append]
    refine ⟨_, rfl, ?_⟩
    intro e he
    cases hq : (write_str STDERR_FILENO dst_err_msg { w with opens := rest }).ret with
    | none =>
      rw [andThen_none _ _ hq] at he
      obtain ⟨p1, q1, h1⟩ := write_str_events _ _ _ e he
      exact Or.inl (Or.inr (Or.inr ⟨p1, q1, h1⟩))
    | some u =>
      rw [andThen_some _ _ u hq] at he
      simp only [Run.andThen, sys_close, Run.done, List.mem_append, List.mem_singleton,
        List.append_nil] at he
      rcases he with he | he
      · obtain ⟨p1, q1, h1⟩ := write_str_events _ _ _ e he
        exact Or.inl (Or.inr (Or.inr ⟨p1, q1, h1⟩))
      · exact Or.inr (Or.inl he)
  · simp only [hd, if_false, List.singleton_append]
    refine ⟨_, rfl, ?_⟩
    intro e he
    have hcp := (copy_file_loop_spec s d (({ w with opens := rest } : World).reads s)
      { w with opens := rest }).1
    cases hq : (copy_file s d { w with opens := rest }).ret with
    | none =>
      rw [andThen_none _ _ hq] at he
      exact Or.inl (hcp e he)
    | some c =>
      rw [andThen_some _ _ c hq] at he
      by_cases hc : c < 0
      · simp only [hc, if_true, Run.andThen, sys_close, Run.done, List.mem_append,
          List.mem_cons, List.mem_singleton, List.append_nil, List.not_mem_nil,
          or_false] at he
        rcases he with he | he | he
        · exact Or.inl (hcp e he)
        · exact Or.inr (Or.inl he)
        · exact Or.inr (Or.inr he)
      · simp only [hc, if_false, Run.andThen, sys_close, Run.done, List.mem_append,
          List.mem_cons, List.mem_singleton, List.append_nil, List.not_mem_nil,
          or_false] at he
        rcases he with he | he | he
        · exact Or.inl (hcp e he)
        · exact Or.inr (Or.inl he)
        · exact Or.inr (Or.inr he)

theorem replay_append (fs : FS) (a b : List Event) :
    replay fs (a ++ b) = (replay fs a).bind fun f => replay f b := by
  induction a generalizing fs with
  | nil => simp [replay]
  | cons e es ih =>
    simp only [List.cons_append, replay]
    cases fs.step e with
    | none => rfl
    | some f1 => exact ih f1

theorem replay_cons_some (fs fs2 : FS) (e : Event) (es : List Event)
    (h : replay fs (e :: es) = some fs2) :
    ∃ fs1, fs.step e = some fs1 ∧ replay fs1 es = some fs2 := by
  simp only [replay] at h
  cases hs : fs.step e with
  | none => rw [hs] at h; cases h
  | some f1 => rw [hs] at h; exact ⟨f1, rfl, h⟩

theorem replay_append_some (fs fs2 : FS) (a b : List Event)
    (h : replay fs (a ++ b) = some fs2) :
    ∃ fs1, replay fs a = some fs1 ∧ replay fs1 b = some fs2 := by
  rw [replay_append] at h
  cases ha : replay fs a with
  | none => rw [ha] at h; cases h
  | some f1 => rw [ha] at h; exact ⟨f1, rfl, h⟩

theorem copy_file_loop_eof (s d : Int) (rs : List ReadRes) (w : World) :
    copy_file_loop s d (ReadRes.data [] :: rs) w =
      { ret := some 0, trace := [Event.read s BUF_SIZE (ReadRes.data [])],
        world := { w with reads := Function.update w.reads s rs } } := by
  rw [copy_file_loop_cons, andThen_some _ _ 0 rfl]
  simp [Run.done]

theorem copy_file_loop_first (s d : Int) (r : ReadRes) (rs : List ReadRes) (w : World) :
    ∃ tl, (copy_file_loop s d (r :: rs) w).trace = Event.read s BUF_SIZE r :: tl := by
  rw [copy_file_loop_cons, andThen_some _ _ r.ret rfl]
  exact ⟨_, rfl⟩

theorem andThen_trace_split {α β : Type} (r : Run α) (k : α → World → Run β) :
    ∃ tl, (r.andThen k).trace = r.trace ++ tl := by
  cases h : r.ret with
  | none => rw [andThen_none _ _ h]; exact ⟨[], by simp⟩
  | some a => rw [andThen_some _ _ a h]; exact ⟨_, rfl⟩

/-- Lines 128-148 of `main` when the create/truncate `open` succeeds. -/
theorem main_copy_opened (s : Int) (dst : String) (w : World) (d : Int) (rest : List Int)
    (hop : w.opens = d :: rest) (hd : 0 ≤ d) :
    main_copy s dst w =
      { ret := ((copy_file s d { w with opens := rest }).andThen fun res w2 =>
            if res < 0 then
              (sys_close s w2).andThen fun _ w3 =>
                (sys_close d w3).andThen fun _ w4 => Run.done (1 : Int) w4
            else
              (sys_close s w2).andThen fun _ w3 =>
                (sys_close d w3).andThen fun _ w4 => Run.done (0 : Int) w4).ret,
        trace := Event.open_ dst OpenFlags.O_WRONLY_CREAT_TRUNC d ::
          ((copy_file s d { w with opens := rest }).andThen fun res w2 =>
            if res < 0 then
              (sys_close s w2).andThen fun _ w3 =>
                (sys_close d w3).andThen fun _ w4 => Run.done (1 : Int) w4
            else
              (sys_close s w2).andThen fun _ w3 =>
                (sys_close d w3).andThen fun _ w4 => Run.done (0 : Int) w4).trace,
        world := ((copy_file s d { w with opens := rest }).andThen fun res w2 =>
            if res < 0 then
              (sys_close s w2).andThen fun _ w3 =>
                (sys_close d w3).andThen fun _ w4 => Run.done (1 : Int) w4
            else
              (sys_close s w2).andThen fun _ w3 =>
                (sys_close d w3).andThen fun _ w4 => Run.done (0 : Int) w4).world } := by
  rw [main_copy, sys_open_cons _ _ _ _ _ hop, andThen_some _ _ d rfl]
  have hd' : ¬ d < 0 := by omega
  simp only [hd', if_false, List.singleton_append]

/-- A descriptor that accepts `x` bytes at each of `n` calls is live for `n` calls. -/
theorem live_replicate (n m : Nat) (x : Int) (h : m ≤ n) (hx : x ≠ 0) :
    Live (List.replicate n x) m := by
  refine ⟨by simpa using h, ?_⟩
  intro y hy
  rw [List.eq_of_mem_replicate hy]
  exact hx

/-- A successful read-only `open` returns a descriptor that was not in use, on
the file the path names, at its start; it changes no file. -/
theorem step_open_rdonly (fs fs1 : FS) (path : String) (r : Int) (hr : 0 ≤ r)
    (h : fs.step (Event.open_ path OpenFlags.O_RDONLY r) = some fs1) :
    fs.fds r = none ∧ fs1.names = fs.names ∧ fs1.content = fs.content ∧
      ∃ i, fs.names path = some i ∧
        fs1.fds = Function.update fs.fds r (some (i, 0, OpenFlags.O_RDONLY)) := by
  have hr' : ¬ r < 0 := by omega
  simp only [FS.step, hr', if_false] at h
  cases hfd : fs.fds r with
  | some x => rw [hfd] at h; simp at h
  | none =>
    rw [hfd] at h
    simp only [Option.isSome_none, Bool.false_eq_true, if_false] at h
    cases hn : fs.names path with
    | none => rw [hn] at h; simp at h
    | some i =>
      rw [hn] at h
      simp only [Option.some.injEq] at h
      cases h
      exact ⟨rfl, rfl, rfl, i, rfl, rfl⟩

/-- A successful create/truncate `open` of a path that names a file returns a
descriptor that was not in use and leaves that file empty. -/
theorem step_open_creat (fs fs1 : FS) (path : String) (r : Int) (i : Nat) (hr : 0 ≤ r)
    (hn : fs.names path = some i)
    (h : fs.step (Event.open_ path OpenFlags.O_WRONLY_CREAT_TRUNC r) = some fs1) :
    fs.fds r = none ∧ fs1.names = fs.names ∧
      fs1.content = Function.update fs.content i [] ∧
      fs1.fds = Function.update fs.fds r (some (i, 0, OpenFlags.O_WRONLY_CREAT_TRUNC)) := by
  have hr' : ¬ r < 0 := by omega
  simp only [FS.step, hr', if_false] at h
  cases hfd : fs.fds r with
  | some x => rw [hfd] at h; simp at h
  | none =>
    rw [hfd, hn] at h
    simp only [Option.isSome_none, Bool.false_eq_true, if_false, Option.some.injEq] at h
    cases h
    exact ⟨rfl, rfl, rfl, rfl⟩

theorem step_close (fs fs1 : FS) (fd : Int) (h : fs.step (Event.close fd) = some fs1) :
    fs1.names = fs.names ∧ fs1.content = fs.content ∧
      fs1.fds = Function.update fs.fds fd none := by
  simp only [FS.step, Option.some.injEq] at h
  cases h
  exact ⟨rfl, rfl, rfl⟩

/-- A call of the dialogue leaves the names of the files as they are, and a
read-only descriptor on a file a read-only descriptor on that file. -/
theorem step_ask_keeps (fs fs1 : FS) (e : Event) (he : AskEv e) (s : Int) (i : Nat)
    (hinv : ∃ o, fs.fds s = some (i, o, OpenFlags.O_RDONLY))
    (h : fs.step e = some fs1) :
    fs1.names = fs.names ∧ ∃ o, fs1.fds s = some (i, o, OpenFlags.O_RDONLY) := by
  obtain ⟨o, ho⟩ := hinv
  rcases he with ⟨pl, q, rfl⟩ | ⟨q, rfl⟩
  · simp only [FS.step] at h
    by_cases hfd : s = STDOUT_FILENO
    · subst hfd
      rw [ho] at h
      simp only [Option.ite_none_right_eq_some] at h
      obtain ⟨-, h⟩ := h
      cases h
      exact ⟨rfl, o, ho⟩
    · cases hx : fs.fds STDOUT_FILENO with
      | none => rw [hx] at h; cases h; exact ⟨rfl, o, ho⟩
      | some x =>
        obtain ⟨i1, o1, f1⟩ := x
        rw [hx] at h
        cases f1
        · simp only [Option.ite_none_right_eq_some] at h
          obtain ⟨-, h⟩ := h
          cases h
          exact ⟨rfl, o, ho⟩
        · simp only at h
          by_cases hq : q < 0
          · simp only [hq, if_true, Option.some.injEq] at h
            cases h
            exact ⟨rfl, o, ho⟩
          · simp only [hq, if_false, Option.ite_none_right_eq_some] at h
            obtain ⟨-, h⟩ := h
            cases h
            exact ⟨rfl, o, by simp only [Function.update_noteq hfd]; exact ho⟩
  · simp only [FS.step] at h
    by_cases hfd : s = STDIN_FILENO
    · subst hfd
      rw [ho] at h
      cases q with
      | fail => cases h; exact ⟨rfl, o, ho⟩
      | data bs =>
        simp only [Option.ite_none_right_eq_some] at h
        obtain ⟨-, h⟩ := h
        cases h
        exact ⟨rfl, o + bs.length, by simp⟩
    · cases hx : fs.fds STDIN_FILENO with
      | none => rw [hx] at h; cases h; exact ⟨rfl, o, ho⟩
      | some x =>
        obtain ⟨i1, o1, f1⟩ := x
        rw [hx] at h
        cases f1 <;> cases q
        · cases h; exact ⟨rfl, o, ho⟩
        · simp only [Option.ite_none_right_eq_some] at h
          obtain ⟨-, h⟩ := h
          cases h
          exact ⟨rfl, o, by simp only [Function.update_noteq hfd]; exact ho⟩
        · cases h; exact ⟨rfl, o, ho⟩
        · simp at h

theorem replay_ask_keeps (s : Int) (i : Nat) :
    ∀ (ask : List Event) (fs fs1 : FS), (∀ e ∈ ask, AskEv e) →
      (∃ o, fs.fds s = some (i, o, OpenFlags.O_RDONLY)) →
      replay fs ask = some fs1 →
      fs1.names = fs.names ∧ ∃ o, fs1.fds s = some (i, o, OpenFlags.O_RDONLY) := by
  intro ask
  induction ask with
  | nil =>
    intro fs fs1 _ hinv h
    simp only [replay, Option.some.injEq] at h
    rw [← h]; exact ⟨rfl, hinv⟩
  | cons e es ih =>
    intro fs fs1 hev hinv h
    obtain ⟨f1, h1, h2⟩ := replay_cons_some fs fs1 e es h
    obtain ⟨k1, k2⟩ := step_ask_keeps fs f1 e (hev e (List.mem_cons_self _ _)) s i hinv h1
    obtain ⟨j1, j2⟩ := ih f1 fs1 (fun x hx => hev x (List.mem_cons_of_mem _ hx)) k2 h2
    exact ⟨by rw [j1, k1], j2⟩

/-- A `read` that does not fail, on a read-only descriptor of an empty file,
returns `0`. -/
theorem step_read_empty (fs fs1 : FS) (s : Int) (i o n : Nat) (res : ReadRes)
    (hfd : fs.fds s = some (i, o, OpenFlags.O_RDONLY)) (hfile : fs.content i = [])
    (hres : res ≠ ReadRes.fail)
    (h : fs.step (Event.read s n res) = some fs1) :
    res = ReadRes.data [] ∧ fs1.content = fs.content ∧ fs1.names = fs.names := by
  simp only [FS.step, hfd] at h
  cases res with
  | fail => exact absurd rfl hres
  | data bs =>
    simp only [hfile, List.drop_nil, List.take_nil, Option.ite_none_right_eq_some] at h
    obtain ⟨hc, h⟩ := h
    cases h
    exact ⟨by rw [hc.2.1], rfl, rfl⟩

/-- A quiet call changes no file and leaves `sfd` not writable. -/
theorem step_quiet (fs fs1 : FS) (sfd : Int) (e : Event) (he : Quiet sfd e)
    (hnw : NotWritable fs sfd) (h : fs.step e = some fs1) :
    fs1.names = fs.names ∧ fs1.content = fs.content ∧ NotWritable fs1 sfd := by
  rcases he with ⟨path, r, rfl⟩ | ⟨fd, rfl⟩ | ⟨fd, n, res, rfl⟩ | ⟨p, q, rfl⟩
  · by_cases hr : r < 0
    · simp only [FS.step, hr, if_true, Option.some.injEq] at h
      rw [← h]; exact ⟨rfl, rfl, hnw⟩
    · obtain ⟨-, h1, h2, i, -, h3⟩ := step_open_rdonly fs fs1 path r (by omega) h
      refine ⟨h1, h2, ?_⟩
      by_cases hfd : sfd = r
      · right
        exact ⟨i, 0, by rw [h3, hfd, Function.update_same]⟩
      · unfold NotWritable
        rw [h3, Function.update_noteq hfd]
        exact hnw
  · obtain ⟨h1, h2, h3⟩ := step_close fs fs1 fd h
    refine ⟨h1, h2, ?_⟩
    by_cases hfd : sfd = fd
    · left
      rw [h3, hfd, Function.update_same]
    · unfold NotWritable
      rw [h3, Function.update_noteq hfd]
      exact hnw
  · simp only [FS.step] at h
    cases hx : fs.fds fd with
    | none => rw [hx] at h; cases h; exact ⟨rfl, rfl, hnw⟩
    | some x =>
      obtain ⟨i1, o1, f1⟩ := x
      rw [hx] at h
      cases f1 <;> cases res
      · cases h; exact ⟨rfl, rfl, hnw⟩
      · rename_i bs
        simp only [Option.ite_none_right_eq_some] at h
        obtain ⟨-, h⟩ := h
        cases h
        refine ⟨rfl, rfl, ?_⟩
        by_cases hfd : sfd = fd
        · right
          subst hfd
          exact ⟨i1, o1 + bs.length, by simp only [Function.update_same]⟩
        · unfold NotWritable
          simp only [Function.update_noteq hfd]
          exact hnw
      · cases h; exact ⟨rfl, rfl, hnw⟩
      · simp at h
  · simp only [FS.step] at h
    rcases hnw with hn | ⟨i, o, hn⟩
    · rw [hn] at h
      cases h
      exact ⟨rfl, rfl, Or.inl hn⟩
    · rw [hn] at h
      simp only [Option.ite_none_right_eq_some] at h
      obtain ⟨-, h⟩ := h
      cases h
      exact ⟨rfl, rfl, Or.inr ⟨i, o, hn⟩⟩

/-- A run of quiet calls changes no file: none is created, emptied or
written. -/
theorem replay_quiet (sfd : Int) :
    ∀ (tr : List Event) (fs fs1 : FS), (∀ e ∈ tr, Quiet sfd e) → NotWritable fs sfd →
      replay fs tr = some fs1 → fs1.names = fs.names ∧ fs1.content = fs.content := by
  intro tr
  induction tr with
  | nil =>
    intro fs fs1 _ _ h
    simp only [replay, Option.some.injEq] at h
    rw [← h]; exact ⟨rfl, rfl⟩
  | cons e es ih =>
    intro fs fs1 hev hnw h
    obtain ⟨f1, h1, h2⟩ := replay_cons_some fs fs1 e es h
    obtain ⟨k1, k2, k3⟩ := step_quiet fs f1 sfd e (hev e (List.mem_cons_self _ _)) hnw h1
    obtain ⟨j1, j2⟩ := ih f1 fs1 (fun x hx => hev x (List.mem_cons_of_mem _ hx)) k3 h2
    exact ⟨by rw [j1, k1], by rw [j2, k2]⟩


/-! ## The claims -/

/-- C1: `copy_file` on a source delivered by the successive `read` calls as
any chunks of at least one byte followed by a `read` returning `0`, and a
destination whose `write` calls each accept at least one byte and at most the
length requested, for as long as there are bytes to write.  It returns `0`; the
bytes accepted by the destination, in order, are the source bytes, in the same
number; its only calls are these `read` and `write` calls; on an empty source
the single call is the `read` that returns `0`.  (The bound `BUF_SIZE` on the
chunks is not needed.) -/
theorem C1_copy_file_copies (src_fd dst_fd : Int) (w : World)
    (chunks : List (List Byte)) (more : List ReadRes)
    (hreads : w.reads src_fd = chunks.map ReadRes.data ++ ReadRes.data [] :: more)
    (hchunks : ∀ c ∈ chunks, 1 ≤ c.length)
    (hpos : ∀ x ∈ w.writes dst_fd, 1 ≤ x)
    (hle : ∀ p r, Event.write dst_fd p r ∈ (copy_file src_fd dst_fd w).trace →
      r ≤ (p.length : Int))
    (henough : (chunks.flatten.length : Int) ≤ (w.writes dst_fd).sum) :
    (copy_file src_fd dst_fd w).ret = some 0 ∧
    bytes_accepted dst_fd (copy_file src_fd dst_fd w).trace = chunks.flatten ∧
    (bytes_accepted dst_fd (copy_file src_fd dst_fd w).trace).length =
      chunks.flatten.length ∧
    (∀ e ∈ (copy_file src_fd dst_fd w).trace,
      (∃ c, e = Event.read src_fd BUF_SIZE (ReadRes.data c)) ∨
        ∃ p r, e = Event.write dst_fd p r) ∧
    (chunks = [] →
      (copy_file src_fd dst_fd w).trace = [Event.read src_fd BUF_SIZE (ReadRes.data [])]) := by
  unfold copy_file at hle ⊢
  rw [hreads] at hle ⊢
  obtain ⟨h1, h2, h3⟩ := copy_file_loop_ok src_fd dst_fd more chunks w hchunks hpos henough hle
  refine ⟨h1, h2, by rw [h2], h3, ?_⟩
  intro hnil
  subst hnil
  simp [copy_file_loop_cons, Run.andThen, ReadRes.ret, Run.done]

/-- Witness for C1: the source `abcd` read as `abc`, `d`, end of input, written as `2`, `1` and `1` bytes. -/
theorem C1_witness :
    (copy_file 3 4 world_copy).ret = some 0 ∧
      bytes_accepted 4 (copy_file 3 4 world_copy).trace = ['a', 'b', 'c', 'd'] := by
  have htr : (copy_file 3 4 world_copy).trace =
      [Event.read 3 BUF_SIZE (ReadRes.data ['a', 'b', 'c']),
        Event.write 4 ['a', 'b', 'c'] 2, Event.write 4 ['c'] 1,
        Event.read 3 BUF_SIZE (ReadRes.data ['d']), Event.write 4 ['d'] 1,
        Event.read 3 BUF_SIZE (ReadRes.data [])] := by decide
  have h := C1_copy_file_copies 3 4 world_copy [['a', 'b', 'c'], ['d']] [] (by decide)
    (by decide) (by decide)
    (by
      intro p r hm
      rw [htr] at hm
      simp only [List.mem_cons, reduceCtorEq, Event.write.injEq, true_and, false_or,
        List.not_mem_nil, or_false] at hm
      rcases hm with ⟨rfl, rfl⟩ | ⟨rfl, rfl⟩ | ⟨rfl, rfl⟩ <;> decide)
    (by decide)
  exact ⟨h.1, h.2.1⟩

/-- C2: in every terminating run of `main` the exit code is `0` or `1`, and it
is `1` exactly when the argument count is not three, or the first call, the
read-only `open` of the source, returned a negative result, or the
create/truncate `open` of the destination returned a negative result, or a
`read` of `BUF_SIZE` bytes (the reads of the copy loop) returned a negative
result, or a `write` on the descriptor returned by the create/truncate `open`
issued after that `open` returned a negative result. -/
theorem C2_exit_code (argv : List String) (w : World) (r : Int)
    (h : (main argv w).ret = some r) :
    (r = 0 ∨ r = 1) ∧
    (r = 1 ↔
      argv.length ≠ 3 ∨
      (∃ path s tl, (main argv w).trace = Event.open_ path OpenFlags.O_RDONLY s :: tl ∧
        s < 0) ∨
      (∃ path d, Event.open_ path OpenFlags.O_WRONLY_CREAT_TRUNC d ∈ (main argv w).trace ∧
        d < 0) ∨
      (∃ fd res, Event.read fd BUF_SIZE res ∈ (main argv w).trace ∧ res.ret < 0) ∨
      (∃ pre path d post p q,
        (main argv w).trace =
          pre ++ Event.open_ path OpenFlags.O_WRONLY_CREAT_TRUNC d :: post ∧
        Event.write d p q ∈ post ∧ q < 0)) := by
  rcases main_ret_shape argv w r h with ⟨hlen, hr, -⟩ |
    ⟨prog, src, dst, s, hargv, ⟨hs, hr, er, htr, -⟩ | ⟨hs, pre, hpre, hrest⟩⟩
  · exact ⟨Or.inr hr, fun _ => Or.inl hlen, fun _ => hr⟩
  · exact ⟨Or.inr hr, fun _ => Or.inr (Or.inl ⟨src, s, er, htr, hs⟩), fun _ => hr⟩
  · obtain ⟨hcre, hrd, tl0, hhead⟩ := probe_part_facts src dst s pre hpre
    have hlen : ¬ argv.length ≠ 3 := by rw [hargv]; simp
    -- the first call is the successful `open` of the source
    have hsrc : ∀ tr1, (main argv w).trace = pre ++ tr1 →
        ¬ ∃ path s1 tl, (main argv w).trace =
          Event.open_ path OpenFlags.O_RDONLY s1 :: tl ∧ s1 < 0 := by
      rintro tr1 htr ⟨path, s1, tl, h1, h2⟩
      rw [htr, hhead] at h1
      simp only [List.cons_append, List.cons.injEq, Event.open_.injEq] at h1
      omega
    rcases hrest with ⟨hr, tl, htr, hev⟩ | ⟨d, hd, hr, er, htr, hev⟩ |
      ⟨d, cp, c, hd, htr, hev, hc, hiff, hr⟩
    · -- cancellation
      refine ⟨Or.inl hr, ?_⟩
      have hnocre : ∀ path d, Event.open_ path OpenFlags.O_WRONLY_CREAT_TRUNC d ∉
          (main argv w).trace := by
        intro path d
        apply is_creat_mem
        rw [htr]
        intro e he
        simp only [List.mem_append, List.mem_singleton] at he
        rcases he with he | he | he
        · exact hcre e he
        · exact is_creat_write _ _ hev e he
        · rw [he]; rfl
      constructor
      · intro h1; omega
      · rintro (h1 | h1 | ⟨path, d, hm, -⟩ | ⟨fd, res, hm, -⟩ | ⟨pre1, path, d, post, p, q, h1, -⟩)
        · exact absurd h1 hlen
        · exact absurd h1 (hsrc _ htr)
        · exact absurd hm (hnocre path d)
        · rw [htr] at hm
          simp only [List.mem_append, List.mem_singleton, reduceCtorEq, or_false] at hm
          rcases hm with hm | hm
          · exact absurd hm (hrd fd res)
          · obtain ⟨p1, q1, h2⟩ := hev _ hm
            cases h2
        · exfalso
          apply hnocre path d
          rw [h1]; simp
    · -- the create/truncate `open` failed
      refine ⟨Or.inr hr, fun _ => ?_, fun _ => hr⟩
      exact Or.inr (Or.inr (Or.inl ⟨dst, d, by rw [htr]; simp, hd⟩))
    · -- the copy ran
      have hr01 : r = 0 ∨ r = 1 := by
        rcases hc with rfl | rfl <;> simp [hr]
      refine ⟨hr01, ?_⟩
      have hpost : ∀ e ∈ cp ++ [Event.close s, Event.close d], is_creat e = false := by
        intro e he
        simp only [List.mem_append, List.mem_cons, List.mem_singleton, List.not_mem_nil,
          or_false] at he
        rcases he with he | rfl | rfl
        · exact is_creat_copy s d cp hev e he
        · rfl
        · rfl
      constructor
      · intro hr1
        have hc1 : c = -1 := by
          rcases hc with rfl | rfl
          · simp [hr] at hr1
          · rfl
        rcases hiff.mp hc1 with ⟨g, n, res, hm, hneg⟩ | ⟨p, q, hm, hneg⟩
        · right; right; right; left
          rcases hev _ hm with ⟨res1, h1⟩ | ⟨p1, q1, h1⟩ | ⟨p1, q1, h1⟩
          · cases h1
            exact ⟨s, res, by rw [htr]; simp [hm], hneg⟩
          · cases h1
          · cases h1
        · right; right; right; right
          exact ⟨pre, dst, d, cp ++ [Event.close s, Event.close d], p, q, htr,
            by simp [hm], hneg⟩
      · intro hrhs
        by_contra hr1
        have hc0 : c = 0 := by
          rcases hc with rfl | rfl
          · rfl
          · simp [hr] at hr1
        have hnot : ¬ ((∃ g n res, Event.read g n res ∈ cp ∧ res.ret < 0) ∨
            (∃ p q, Event.write d p q ∈ cp ∧ q < 0)) := by
          intro hx
          have := hiff.mpr hx
          omega
        rcases hrhs with h1 | h1 | ⟨path, d1, hm, hneg⟩ | ⟨fd, res, hm, hneg⟩ |
          ⟨pre1, path, d1, post, p, q, h1, hm, hneg⟩
        · exact absurd h1 hlen
        · exact absurd h1 (hsrc _ htr)
        · rw [htr, List.mem_append, List.mem_cons] at hm
          rcases hm with hm | hm | hm
          · have := hcre _ hm
            simp [is_creat] at this
          · simp only [Event.open_.injEq] at hm
            omega
          · have := hpost _ hm
            simp [is_creat] at this
        · rw [htr] at hm
          simp only [List.mem_append, List.mem_cons, List.mem_singleton, reduceCtorEq,
            false_or, or_false, List.not_mem_nil] at hm
          rcases hm with hm | hm
          · exact absurd hm (hrd fd res)
          · exact hnot (Or.inl ⟨fd, BUF_SIZE, res, hm, hneg⟩)
        · rw [htr] at h1
          obtain ⟨-, h3, h4⟩ := split_unique is_creat pre pre1
            (Event.open_ dst OpenFlags.O_WRONLY_CREAT_TRUNC d)
            (Event.open_ path OpenFlags.O_WRONLY_CREAT_TRUNC d1) _ post hcre hpost rfl h1.symm
          simp only [Event.open_.injEq] at h3
          obtain ⟨-, -, rfl⟩ := h3
          rw [h4] at hm
          simp only [List.mem_append, List.mem_cons, List.mem_singleton, reduceCtorEq,
            or_false, List.not_mem_nil] at hm
          exact hnot (Or.inr ⟨p, q, hm, hneg⟩)

/-- Witness for C2: a run whose second `read` of the source fails exits with `1`. -/
theorem C2_witness :
    (main ["my_copy", "a", "b"] world_read_error).ret = some 1 ∧
      ((1 : Int) = 0 ∨ (1 : Int) = 1) :=
  ⟨by decide, (C2_exit_code ["my_copy", "a", "b"] world_read_error 1 (by decide)).1⟩

/-- C3: with an argument count other than two (`argc != 3`), every system call
of `main` is a `write` on the error stream: no `open`, `read` or `close` is
issued, so no file is touched.  The first call passes the whole usage message;
`main` returns `1` whenever it returns, and it does return when the error
stream answers the `write` calls without ever answering `0`; when no `write`
fails the bytes accepted by the error stream are the usage message.  In a file
system where the error stream is not a file, the run leaves every file as it
was: none is created or modified. -/
theorem C3_usage_error (argv : List String) (w : World) (h : argv.length ≠ 3) :
    (∀ e ∈ (main argv w).trace, ∃ p r, e = Event.write STDERR_FILENO p r) ∧
    ((main argv w).ret = some 1 ∨ (main argv w).ret = none) ∧
    (∀ r rest, w.writes STDERR_FILENO = r :: rest →
      (main argv w).trace.head? = some (Event.write STDERR_FILENO usage_msg r)) ∧
    (Live (w.writes STDERR_FILENO) usage_msg.length → (main argv w).ret = some 1) ∧
    ((main argv w).ret = some 1 →
      (∀ p r, Event.write STDERR_FILENO p r ∈ (main argv w).trace →
        0 ≤ r ∧ r ≤ (p.length : Int)) →
      bytes_accepted STDERR_FILENO (main argv w).trace = usage_msg) ∧
    (∀ fs0 fs1, fs0.fds STDERR_FILENO = none →
      replay fs0 (main argv w).trace = some fs1 →
        fs1.names = fs0.names ∧ fs1.content = fs0.content) := by
  rw [main_usage argv w h, andThen_done_ret, andThen_done_trace]
  refine ⟨fun e he => write_str_events _ _ _ e he, ?_, ?_, ?_, ?_, ?_⟩
  · cases (write_str STDERR_FILENO usage_msg w).ret <;> simp
  · intro r rest hw
    exact write_str_head _ _ _ r rest hw (by decide)
  · intro hl
    rw [(write_str_live _ _ _ _ hl (le_refl _)).1]; rfl
  · intro hret hb
    apply write_str_accepted _ _ _ _ hb
    cases hr : (write_str STDERR_FILENO usage_msg w).ret with
    | none => rw [hr] at hret; simp at hret
    | some u => rfl
  · intro fs0 fs1 hfd hrep
    refine replay_quiet STDERR_FILENO _ fs0 fs1 ?_ (Or.inl hfd) hrep
    intro e he
    obtain ⟨p, q, hpq⟩ := write_str_events _ _ _ e he
    exact Or.inr (Or.inr (Or.inr ⟨p, q, hpq⟩))

/-- Witness for C3: one argument only. -/
theorem C3_witness :
    ["my_copy", "a"].length ≠ 3 ∧
      ∀ e ∈ (main ["my_copy", "a"] world_stderr).trace,
        ∃ p r, e = Event.write STDERR_FILENO p r :=
  ⟨by decide, (C3_usage_error ["my_copy", "a"] world_stderr (by decide)).1⟩

/-- C4: the destination exists (the probe `open` succeeds) and the dialogue
ends in a cancellation: after any characters that are no answers, the `read`
on standard input delivers `n` or `N`, or returns end of input or an error.
With a standard output that answers the `write` calls without ever answering
`0`, `main` returns `0`; it issues no create/truncate `open`; all its `write`
calls are on standard output; after the dialogue it writes the cancellation
message and closes the source.  In a file system where standard output is not
a file, the run leaves every file, the destination among them, as it was. -/
theorem C4_cancel_keeps_destination (prog src dst : String) (w : World) (s p : Int)
    (rest : List Int) (cs : List Char) (t : ReadRes) (more : List ReadRes)
    (hop : w.opens = s :: p :: rest) (hs : 0 ≤ s) (hp : 0 ≤ p)
    (hcs : ∀ c ∈ cs, c ≠ 'y' ∧ c ≠ 'Y' ∧ c ≠ 'n' ∧ c ≠ 'N')
    (ht : t = ReadRes.data ['n'] ∨ t = ReadRes.data ['N'] ∨ t = ReadRes.data [] ∨
      t = ReadRes.fail)
    (hin : w.reads STDIN_FILENO = cs.map (fun c => ReadRes.data [c]) ++ t :: more)
    (hout : Live (w.writes STDOUT_FILENO)
      ((cs.length + 1) * prompt_msg.length + cs.length * invalid_msg.length +
        cancel_msg.length)) :
    (main [prog, src, dst] w).ret = some 0 ∧
    (∀ path d, Event.open_ path OpenFlags.O_WRONLY_CREAT_TRUNC d ∉
      (main [prog, src, dst] w).trace) ∧
    (∀ fd pl q, Event.write fd pl q ∈ (main [prog, src, dst] w).trace →
      fd = STDOUT_FILENO) ∧
    (∃ ask q tl,
      (main [prog, src, dst] w).trace =
        [Event.open_ src OpenFlags.O_RDONLY s, Event.open_ dst OpenFlags.O_RDONLY p,
          Event.close p] ++ ask ++ (Event.write STDOUT_FILENO cancel_msg q :: tl) ++
          [Event.close s] ∧
      (∀ e ∈ ask, AskEv e) ∧
      ∀ e ∈ tl, ∃ pl q1, e = Event.write STDOUT_FILENO pl q1) ∧
    (∀ fs0 fs1, fs0.fds STDOUT_FILENO = none →
      replay fs0 (main [prog, src, dst] w).trace = some fs1 →
        fs1.names = fs0.names ∧ fs1.content = fs0.content) := by
  rw [prompt_msg_length, invalid_msg_length, cancel_msg_length] at hout
  have htd : decision t = some 0 := by
    rcases ht with rfl | rfl | rfl | rfl <;> decide
  have hjunk : ∀ j ∈ cs.map (fun c => ReadRes.data [c]), decision j = none := by
    intro j hj
    obtain ⟨c, hc, rfl⟩ := List.mem_map.mp hj
    exact decision_invalid_char c (hcs c hc)
  set w2 : World := { w with opens := rest } with hw2
  obtain ⟨a1, -, -, -, -, -, a7, -, -, a10, -⟩ :=
    ask_overwrite_loop_run t 0 htd more (cs.map (fun c => ReadRes.data [c])) w2 _
      (ask_overwrite dst w2) (by unfold ask_overwrite; rw [← hin]) hjunk hout
      (by simp only [List.length_map]; omega)
  simp only [List.length_map] at a7
  obtain ⟨c1, c2⟩ := write_str_live STDOUT_FILENO cancel_msg (ask_overwrite dst w2).world _ a7
    (by rw [cancel_msg_length]; omega)
  obtain ⟨q, wsq, hq⟩ := List.exists_cons_of_ne_nil (a7.ne_nil (by omega))
  obtain ⟨tl, htl⟩ := head?_some_cons _ _
    (write_str_head STDOUT_FILENO cancel_msg (ask_overwrite dst w2).world q wsq hq
      cancel_msg_ne_nil)
  have hcev := write_str_events STDOUT_FILENO cancel_msg (ask_overwrite dst w2).world
  rw [htl] at hcev
  have htrace : (main [prog, src, dst] w).trace =
      [Event.open_ src OpenFlags.O_RDONLY s, Event.open_ dst OpenFlags.O_RDONLY p,
        Event.close p] ++ (ask_overwrite dst w2).trace ++
        (Event.write STDOUT_FILENO cancel_msg q :: tl) ++ [Event.close s] := by
    rw [main_after_probe prog src dst w s p rest hop hs]
    simp only [hp, if_true]
    rw [andThen_some _ _ 0 a1]
    simp only [if_true]
    rw [andThen_some _ _ () c1, htl]
    simp [Run.andThen, sys_close, Run.done]
  have hret : (main [prog, src, dst] w).ret = some 0 := by
    rw [main_after_probe prog src dst w s p rest hop hs]
    simp only [hp, if_true]
    rw [andThen_some _ _ 0 a1]
    simp only [if_true]
    rw [andThen_some _ _ () c1]
    simp [Run.andThen, sys_close, Run.done]
  have htlev : ∀ e ∈ tl, ∃ pl q1, e = Event.write STDOUT_FILENO pl q1 :=
    fun e he => hcev e (List.mem_cons_of_mem _ he)
  refine ⟨hret, ?_, ?_, ⟨(ask_overwrite dst w2).trace, q, tl, htrace, a10, htlev⟩, ?_⟩
  · intro path d hm
    rw [htrace] at hm
    simp only [List.mem_append, List.mem_cons, List.mem_singleton, reduceCtorEq,
      Event.open_.injEq, false_or, or_false, List.not_mem_nil, false_and, and_false] at hm
    rcases hm with hm | hm
    · rcases a10 _ hm with ⟨p1, q1, h1⟩ | ⟨q1, h1⟩ <;> cases h1
    · obtain ⟨p1, q1, h1⟩ := htlev _ hm
      cases h1
  · intro fd pl q1 hm
    rw [htrace] at hm
    simp only [List.mem_append, List.mem_cons, List.mem_singleton, reduceCtorEq,
      false_or, or_false, List.not_mem_nil] at hm
    rcases hm with hm | hm | hm
    · rcases a10 _ hm with ⟨p1, q2, h1⟩ | ⟨q2, h1⟩
      · cases h1; rfl
      · cases h1
    · cases hm; rfl
    · obtain ⟨p1, q2, h1⟩ := htlev _ hm
      cases h1; rfl
  · intro fs0 fs1 hfd hrep
    refine replay_quiet STDOUT_FILENO _ fs0 fs1 ?_ (Or.inl hfd) hrep
    intro e he
    rw [htrace] at he
    simp only [List.mem_append, List.mem_cons, List.mem_singleton, List.not_mem_nil,
      or_false] at he
    rcases he with (((he | he | he) | he) | (he | he)) | he
    · exact Or.inl ⟨src, s, he⟩
    · exact Or.inl ⟨dst, p, he⟩
    · exact Or.inr (Or.inl ⟨p, he⟩)
    · rcases a10 e he with ⟨p1, q1, h1⟩ | ⟨q1, h1⟩
      · exact Or.inr (Or.inr (Or.inr ⟨p1, q1, h1⟩))
      · exact Or.inr (Or.inr (Or.inl ⟨_, _, q1, h1⟩))
    · exact Or.inr (Or.inr (Or.inr ⟨_, q, he⟩))
    · obtain ⟨p1, q1, h1⟩ := htlev e he
      exact Or.inr (Or.inr (Or.inr ⟨p1, q1, h1⟩))
    · exact Or.inr (Or.inl ⟨s, he⟩)

/-- Witness for C4: the destination exists and the user answers `n`. -/
theorem C4_witness : (main ["my_copy", "a", "b"] world_cancel).ret = some 0 :=
  (C4_cancel_keeps_destination "my_copy" "a" "b" world_cancel 3 4 [] [] (ReadRes.data ['n']) []
    (by decide) (by decide) (by decide) (by decide) (by decide) (by decide)
    (live_replicate 145 _ 145 (by decide) (by decide))).1

/-- C5: `ask_overwrite` on a standard input that delivers `k` characters, none
of them `y`, `Y`, `n` or `N`, and then `y` or `Y`, with a standard output that
answers the `write` calls without ever answering `0`.  It returns `1`; it
issues exactly `k + 1` calls of `read`, each for one character on standard
input, and leaves the rest of the input unread; exactly `k + 1` of its `write`
calls pass the whole prompt and exactly `k` pass the whole invalid-input
message; the value returned is the one returned on the single input `y`. -/
theorem C5_ask_overwrite_retry (dst : String) (w : World) (cs : List Char) (a : Char)
    (more : List ReadRes)
    (hcs : ∀ c ∈ cs, c ≠ 'y' ∧ c ≠ 'Y' ∧ c ≠ 'n' ∧ c ≠ 'N')
    (ha : a = 'y' ∨ a = 'Y')
    (hin : w.reads STDIN_FILENO =
      cs.map (fun c => ReadRes.data [c]) ++ ReadRes.data [a] :: more)
    (hout : Live (w.writes STDOUT_FILENO)
      ((cs.length + 1) * prompt_msg.length + cs.length * invalid_msg.length)) :
    (ask_overwrite dst w).ret = some 1 ∧
    List.countP (is_read_on STDIN_FILENO) (ask_overwrite dst w).trace = cs.length + 1 ∧
    (∀ fd count r, Event.read fd count r ∈ (ask_overwrite dst w).trace →
      fd = STDIN_FILENO ∧ count = 1) ∧
    (ask_overwrite dst w).world.reads STDIN_FILENO = more ∧
    List.countP (is_write_of STDOUT_FILENO prompt_msg) (ask_overwrite dst w).trace =
      cs.length + 1 ∧
    List.countP (is_write_of STDOUT_FILENO invalid_msg) (ask_overwrite dst w).trace =
      cs.length ∧
    (ask_overwrite dst w).ret =
      (ask_overwrite dst
        { w with reads := Function.update w.reads STDIN_FILENO [ReadRes.data ['y']] }).ret := by
  rw [prompt_msg_length, invalid_msg_length] at hout
  have hjunk : ∀ j ∈ cs.map (fun c => ReadRes.data [c]), decision j = none := by
    intro j hj
    obtain ⟨c, hc, rfl⟩ := List.mem_map.mp hj
    exact decision_invalid_char c (hcs c hc)
  obtain ⟨h1, h2, h3, h4, h5, -, -, -, -, h10, -⟩ :=
    ask_overwrite_loop_run (ReadRes.data [a]) 1 (decision_yes a ha) more
      (cs.map (fun c => ReadRes.data [c])) w _ (ask_overwrite dst w)
      (by unfold ask_overwrite; rw [hin]) hjunk hout (by simp)
  simp only [List.length_map] at h2 h3 h4
  obtain ⟨k1, -⟩ :=
    ask_overwrite_loop_run (ReadRes.data ['y']) 1 (by decide) [] []
      { w with reads := Function.update w.reads STDIN_FILENO [ReadRes.data ['y']] } 108
      (ask_overwrite dst
        { w with reads := Function.update w.reads STDIN_FILENO [ReadRes.data ['y']] })
      (by unfold ask_overwrite; simp) (by simp) (hout.mono (by omega)) (by simp)
  refine ⟨h1, h2, ?_, h5, h3, h4, by rw [h1, k1]⟩
  intro fd count r hm
  rcases h10 _ hm with ⟨p, q, he⟩ | ⟨q, he⟩
  · cases he
  · cases he; exact ⟨rfl, rfl⟩

/-- Witness for C5: the user types `x` and then `y`. -/
theorem C5_witness : (ask_overwrite "b" world_retry).ret = some 1 :=
  (C5_ask_overwrite_retry "b" world_retry ['x'] 'y' [] (by decide) (by decide) (by decide)
    (live_replicate 256 _ 108 (by decide) (by decide))).1

/-- C6: when the read-only `open` of the source fails, that `open` is the
first call of `main` and every later call is a `write` on the error stream,
the first of which passes the whole message "Error: source file does not exist
or cannot be read": there is no call on the destination path (no probe, no
create/truncate `open`), no prompt and no `read`.  `main` returns `1` whenever
it returns, and it does return when the error stream answers the `write`
calls without ever answering `0`; when no `write` fails the bytes accepted by
the error stream are the message.  In a file system where the error stream is
not a file, the run leaves every file as it was: no destination is created. -/
theorem C6_source_open_failure (prog src dst : String) (w : World) (s : Int)
    (rest : List Int) (hop : w.opens = s :: rest) (hs : s < 0) :
    ∃ tr, (main [prog, src, dst] w).trace = Event.open_ src OpenFlags.O_RDONLY s :: tr ∧
      (∀ e ∈ tr, ∃ p r, e = Event.write STDERR_FILENO p r) ∧
      (∀ r ws, w.writes STDERR_FILENO = r :: ws →
        tr.head? = some (Event.write STDERR_FILENO src_err_msg r)) ∧
      ((main [prog, src, dst] w).ret = some 1 ∨ (main [prog, src, dst] w).ret = none) ∧
      (Live (w.writes STDERR_FILENO) src_err_msg.length →
        (main [prog, src, dst] w).ret = some 1) ∧
      ((main [prog, src, dst] w).ret = some 1 →
        (∀ p r, Event.write STDERR_FILENO p r ∈ tr → 0 ≤ r ∧ r ≤ (p.length : Int)) →
        bytes_accepted STDERR_FILENO tr = src_err_msg) ∧
      (∀ fs0 fs1, fs0.fds STDERR_FILENO = none →
        replay fs0 (main [prog, src, dst] w).trace = some fs1 →
        fs1.names = fs0.names ∧ fs1.content = fs0.content) := by
  rw [main_three, sys_open_cons _ _ _ _ _ hop, andThen_some _ _ s rfl]
  simp only [hs, if_true, andThen_done_ret, andThen_done_trace, List.singleton_append]
  set w1 : World := { w with opens := rest } with hw1
  have hw : w1.writes STDERR_FILENO = w.writes STDERR_FILENO := rfl
  refine ⟨_, rfl, fun e he => write_str_events _ _ _ e he, ?_, ?_, ?_, ?_, ?_⟩
  · intro r ws hws
    exact write_str_head _ _ _ r ws (by rw [hw]; exact hws) (by decide)
  · cases (write_str STDERR_FILENO src_err_msg w1).ret <;> simp
  · intro hl
    rw [(write_str_live _ _ w1 _ (by rw [hw]; exact hl) (le_refl _)).1]; rfl
  · intro hret hb
    apply write_str_accepted _ _ _ _ hb
    cases hr : (write_str STDERR_FILENO src_err_msg w1).ret with
    | none => rw [hr] at hret; simp at hret
    | some u => rfl
  · intro fs0 fs1 hfd hrep
    refine replay_quiet STDERR_FILENO _ fs0 fs1 ?_ (Or.inl hfd) hrep
    intro e he
    simp only [List.mem_cons] at he
    rcases he with he | he
    · exact Or.inl ⟨src, s, he⟩
    · obtain ⟨p, q, hpq⟩ := write_str_events _ _ _ e he
      exact Or.inr (Or.inr (Or.inr ⟨p, q, hpq⟩))

/-- Witness for C6: the `open` of the source returns `-1`. -/
theorem C6_witness :
    (main ["my_copy", "a", "b"] world_stderr).ret = some 1 ∨
      (main ["my_copy", "a", "b"] world_stderr).ret = none := by
  obtain ⟨tr, -, -, -, h, -, -⟩ :=
    C6_source_open_failure "my_copy" "a" "b" world_stderr (-1) [] (by decide) (by decide)
  exact h

/-- C7: in every terminating run of `main`, on every exit path, the `close`
calls on each descriptor are exactly as many as the successful `open` calls
that returned it (each handle obtained is closed once), and at every moment
of the run the `close` calls on a descriptor are at most the successful `open`
calls that returned it so far (no `close` on a handle that is not open). -/
theorem C7_handles_closed_once (argv : List String) (w : World) (r : Int)
    (h : (main argv w).ret = some r) :
    (∀ fd, closed fd (main argv w).trace = opened fd (main argv w).trace) ∧
    (∀ fd n, closed fd ((main argv w).trace.take n) ≤
      opened fd ((main argv w).trace.take n)) := by
  rcases main_ret_shape argv w r h with ⟨-, -, hev⟩ |
    ⟨prog, src, dst, s, -, ⟨hs, -, er, htr, hev⟩ | ⟨hs, pre, hpre, hrest⟩⟩
  · refine balanced_of_oc _ [] (filter_oc_write _ _ hev) ?_
    constructor
    · intro fd; rfl
    · intro fd m; simp [closed, opened]
  · refine balanced_of_oc _ [Event.open_ src OpenFlags.O_RDONLY s] ?_ ?_
    · rw [htr]
      simp [List.filter, is_oc, filter_oc_write _ _ hev]
    · constructor
      · intro fd; simp only [closed, opened]; split_ifs <;> omega
      · intro fd m
        rcases m with _ | m <;> simp [closed, opened]
  · rcases hpre with ⟨p, hp, rfl⟩ | ⟨p, ask, hp, rfl, hask⟩
    · rcases hrest with ⟨-, tl, htr, hev⟩ | ⟨d, hd, -, er, htr, hev⟩ |
        ⟨d, cp, c, hd, htr, hev, -, -, -⟩
      · refine balanced_of_oc _ [Event.open_ src OpenFlags.O_RDONLY s,
          Event.open_ dst OpenFlags.O_RDONLY p, Event.close s] ?_ ?_
        · rw [htr]
          simp [List.filter, is_oc, filter_oc_write _ _ hev]
        · constructor
          · intro fd; simp [closed, opened]; split_ifs <;> omega
          · intro fd m
            rcases m with _ | _ | _ | m <;> simp [closed, opened]
            split_ifs <;> omega
      · refine balanced_of_oc _ [Event.open_ src OpenFlags.O_RDONLY s,
          Event.open_ dst OpenFlags.O_RDONLY p,
          Event.open_ dst OpenFlags.O_WRONLY_CREAT_TRUNC d, Event.close s] ?_ ?_
        · rw [htr]
          simp [List.filter, is_oc, filter_oc_write _ _ hev]
        · constructor
          · intro fd; simp [closed, opened]; split_ifs <;> omega
          · intro fd m
            rcases m with _ | _ | _ | _ | m <;> simp [closed, opened]
            split_ifs <;> omega
      · refine balanced_of_oc _ [Event.open_ src OpenFlags.O_RDONLY s,
          Event.open_ dst OpenFlags.O_RDONLY p,
          Event.open_ dst OpenFlags.O_WRONLY_CREAT_TRUNC d, Event.close s, Event.close d] ?_ ?_
        · rw [htr]
          simp [List.filter, is_oc, filter_oc_copy _ _ _ hev]
        · constructor
          · intro fd; simp [closed, opened]; split_ifs <;> omega
          · intro fd m
            rcases m with _ | _ | _ | _ | _ | m <;> simp [closed, opened] <;>
              split_ifs <;> omega
    · rcases hrest with ⟨-, tl, htr, hev⟩ | ⟨d, hd, -, er, htr, hev⟩ |
        ⟨d, cp, c, hd, htr, hev, -, -, -⟩
      · refine balanced_of_oc _ [Event.open_ src OpenFlags.O_RDONLY s,
          Event.open_ dst OpenFlags.O_RDONLY p, Event.close p, Event.close s] ?_ ?_
        · rw [htr]
          simp [List.filter, is_oc, filter_oc_write _ _ hev, filter_oc_ask _ hask]
        · constructor
          · intro fd; simp [closed, opened]; split_ifs <;> omega
          · intro fd m
            rcases m with _ | _ | _ | _ | m <;> simp [closed, opened] <;> split_ifs <;> omega
      · refine balanced_of_oc _ [Event.open_ src OpenFlags.O_RDONLY s,
          Event.open_ dst OpenFlags.O_RDONLY p, Event.close p,
          Event.open_ dst OpenFlags.O_WRONLY_CREAT_TRUNC d, Event.close s] ?_ ?_
        · rw [htr]
          simp [List.filter, is_oc, filter_oc_write _ _ hev, filter_oc_ask _ hask]
        · constructor
          · intro fd; simp [closed, opened]; split_ifs <;> omega
          · intro fd m
            rcases m with _ | _ | _ | _ | _ | m <;> simp [closed, opened] <;>
              split_ifs <;> omega
      · refine balanced_of_oc _ [Event.open_ src OpenFlags.O_RDONLY s,
          Event.open_ dst OpenFlags.O_RDONLY p, Event.close p,
          Event.open_ dst OpenFlags.O_WRONLY_CREAT_TRUNC d, Event.close s, Event.close d] ?_ ?_
        · rw [htr]
          simp [List.filter, is_oc, filter_oc_copy _ _ _ hev, filter_oc_ask _ hask]
        · constructor
          · intro fd; simp [closed, opened]; split_ifs <;> omega
          · intro fd m
            rcases m with _ | _ | _ | _ | _ | _ | m <;> simp [closed, opened] <;>
              split_ifs <;> omega

/-- Witness for C7: a successful copy to a new destination. -/
theorem C7_witness :
    (main ["my_copy", "a", "b"] world_fresh).ret = some 0 ∧
      ∀ fd, closed fd (main ["my_copy", "a", "b"] world_fresh).trace =
        opened fd (main ["my_copy", "a", "b"] world_fresh).trace :=
  ⟨by decide, (C7_handles_closed_once ["my_copy", "a", "b"] world_fresh 0 (by decide)).1⟩

/-- C8: `write_all` on any buffer, any `count >= 0` and any results of the
`write` calls that are each at most the length requested.  The `i`-th call is
`nth_write`: pointer `buf + acc`, length `count - acc`, `acc` the sum of the
earlier results; every call is issued with `acc < count`.  The return value is
`-1` exactly when one of the calls issued returned a negative result, and that
call is the last one; a non-negative result that leaves `acc < count` is
followed by a further call (as long as the kernel answers); the return value is
`0` exactly when the results add up to `count`; otherwise the run is blocked
in a `write`. -/
theorem C8_write_all_contract (fd : Int) (buf : List Byte) (count : Int) (w : World)
    (hcount : 0 ≤ count)
    (hres : ∀ p r, Event.write fd p r ∈ (write_all fd buf count w).trace →
      r ≤ (p.length : Int)) :
    ∃ n, n ≤ (w.writes fd).length ∧
      (write_all fd buf count w).trace =
        (List.range n).map (nth_write fd buf count 0 (w.writes fd)) ∧
      (∀ i, i < n → ((w.writes fd).take i).sum < count) ∧
      ((write_all fd buf count w).ret = some (-1) ↔
        ∃ i, i < n ∧ (w.writes fd).getD i 0 < 0) ∧
      (∀ i, i < n → (w.writes fd).getD i 0 < 0 → i + 1 = n) ∧
      (∀ i, i < n → 0 ≤ (w.writes fd).getD i 0 →
        ((w.writes fd).take (i + 1)).sum < count → i + 1 < (w.writes fd).length →
        i + 1 < n) ∧
      ((write_all fd buf count w).ret = some 0 ↔
        (∀ i, i < n → 0 ≤ (w.writes fd).getD i 0) ∧ ((w.writes fd).take n).sum = count) ∧
      ((write_all fd buf count w).ret = none ↔
        n = (w.writes fd).length ∧ (∀ i, i < n → 0 ≤ (w.writes fd).getD i 0) ∧
          ((w.writes fd).take n).sum < count) := by
  obtain ⟨n, hn, htr, -, hlt, hnn, hret⟩ := write_all_loop_spec fd buf count (w.writes fd) 0
  have htr' : (write_all fd buf count w).trace =
      (List.range n).map (nth_write fd buf count 0 (w.writes fd)) := htr
  have hretdef : (write_all fd buf count w).ret =
      (write_all_loop fd buf count 0 (w.writes fd)).1 := rfl
  simp only [zero_add] at hlt hret
  -- every result is at most what remains to be written
  have hbound : ∀ i, i < n → ((w.writes fd).take (i + 1)).sum ≤ count := by
    intro i hi
    have hmem : nth_write fd buf count 0 (w.writes fd) i ∈ (write_all fd buf count w).trace := by
      rw [htr']
      exact List.mem_map.mpr ⟨i, List.mem_range.mpr hi, rfl⟩
    have h1 := hres _ _ hmem
    have h2 := hlt i hi
    rw [sum_take_succ_getD _ _ (by omega)]
    have h3 : (((buf.drop (0 + ((w.writes fd).take i).sum).toNat).take
        (count - (0 + ((w.writes fd).take i).sum)).toNat).length : Int) ≤
        count - ((w.writes fd).take i).sum := by
      rw [List.length_take]
      simp only [zero_add]
      omega
    omega
  have hlast : ∀ i, i < n → (w.writes fd).getD i 0 < 0 → i + 1 = n := by
    intro i hi hneg
    by_contra hne
    have := hnn i (by omega)
    omega
  refine ⟨n, hn, htr', hlt, ?_, hlast, ?_, ?_, ?_⟩
  · rw [hretdef]
    constructor
    · intro h
      rcases hret with ⟨h1, -⟩ | ⟨-, h2, h3⟩ | ⟨h1, -⟩
      · rw [h1] at h; cases h
      · exact ⟨n - 1, by omega, h3⟩
      · rw [h1] at h; simp at h
    · rintro ⟨i, hi, hneg⟩
      rcases hret with ⟨-, -, h3, -⟩ | ⟨h1, -⟩ | ⟨-, h3, -⟩
      · have := h3 i hi; omega
      · exact h1
      · have := h3 i hi; omega
  · intro i hi hpos hsum hlen
    by_contra hnot
    have hin : n = i + 1 := by omega
    subst hin
    rcases hret with ⟨-, h2, -⟩ | ⟨-, -, h3⟩ | ⟨-, -, h4⟩
    · omega
    · rw [Nat.add_sub_cancel] at h3; omega
    · omega
  · rw [hretdef]
    constructor
    · intro h
      rcases hret with ⟨h1, -⟩ | ⟨h1, -⟩ | ⟨-, h3, h4⟩
      · rw [h1] at h; cases h
      · rw [h1] at h; simp at h
      · refine ⟨h3, le_antisymm ?_ h4⟩
        cases n with
        | zero => simpa using hcount
        | succ m => exact hbound m (by omega)
    · rintro ⟨hall, hsum⟩
      rcases hret with ⟨-, -, -, h4⟩ | ⟨-, h2, h3⟩ | ⟨h1, -⟩
      · omega
      · have := hall (n - 1) (by omega); omega
      · exact h1
  · rw [hretdef]
    constructor
    · intro h
      rcases hret with ⟨-, h2, h3, h4⟩ | ⟨h1, -⟩ | ⟨h1, -⟩
      · exact ⟨h2, h3, h4⟩
      · rw [h1] at h; cases h
      · rw [h1] at h; cases h
    · rintro ⟨-, hall, hsum⟩
      rcases hret with ⟨h1, -⟩ | ⟨-, h2, h3⟩ | ⟨-, -, h4⟩
      · exact h1
      · have := hall (n - 1) (by omega); omega
      · omega

/-- Witness for C8: three bytes written by a `write` of `2` and a `write` of `1`. -/
theorem C8_witness :
    ∃ n, n ≤ (world_short_write.writes 4).length ∧
      (write_all 4 ['a', 'b', 'c'] 3 world_short_write).trace =
        (List.range n).map (nth_write 4 ['a', 'b', 'c'] 3 0 (world_short_write.writes 4)) := by
  have htr : (write_all 4 ['a', 'b', 'c'] 3 world_short_write).trace =
      [Event.write 4 ['a', 'b', 'c'] 2, Event.write 4 ['c'] 1] := by decide
  obtain ⟨n, h1, h2, -⟩ := C8_write_all_contract 4 ['a', 'b', 'c'] 3 world_short_write
    (by decide)
    (by
      intro p r hm
      rw [htr] at hm
      simp only [List.mem_cons, Event.write.injEq, true_and, List.not_mem_nil,
        or_false] at hm
      rcases hm with ⟨rfl, rfl⟩ | ⟨rfl, rfl⟩ <;> decide)
  exact ⟨n, h1, h2⟩

/-- C9: after a successful `open` of the source, the dialogue runs exactly when
the probe `open` of the destination succeeds.  When the probe fails (`p < 0`,
for whatever reason), the next call is the create/truncate `open` of the
destination; every `read` of the run is a `read` of `BUF_SIZE` bytes on the
source and every `write` is on the error stream or on the descriptor of the
destination: no prompt is written and no character is read.  When the probe
succeeds, the calls that follow its `close` start with the `write` of the
prompt on standard output, and any create/truncate `open` comes after it. -/
theorem C9_prompt_iff_probe (prog src dst : String) (w : World) (s p : Int)
    (rest : List Int) (hop : w.opens = s :: p :: rest) (hs : 0 ≤ s) :
    (p < 0 →
      ∃ tl, (main [prog, src, dst] w).trace =
          [Event.open_ src OpenFlags.O_RDONLY s, Event.open_ dst OpenFlags.O_RDONLY p] ++ tl ∧
        (∀ d ds, rest = d :: ds →
          tl.head? = some (Event.open_ dst OpenFlags.O_WRONLY_CREAT_TRUNC d)) ∧
        (rest = [] → tl = []) ∧
        (∀ fd n res, Event.read fd n res ∈ (main [prog, src, dst] w).trace →
          fd = s ∧ n = BUF_SIZE) ∧
        (∀ fd pl q, Event.write fd pl q ∈ (main [prog, src, dst] w).trace →
          fd = STDERR_FILENO ∨ rest.head? = some fd)) ∧
    (0 ≤ p →
      ∃ tl, (main [prog, src, dst] w).trace =
          [Event.open_ src OpenFlags.O_RDONLY s, Event.open_ dst OpenFlags.O_RDONLY p,
            Event.close p] ++ tl ∧
        (∀ q ws, w.writes STDOUT_FILENO = q :: ws →
          tl.head? = some (Event.write STDOUT_FILENO prompt_msg q)) ∧
        (w.writes STDOUT_FILENO = [] → tl = []) ∧
        (∀ i path d, (main [prog, src, dst] w).trace[i]? =
            some (Event.open_ path OpenFlags.O_WRONLY_CREAT_TRUNC d) →
          4 ≤ i ∧ ∃ q, (main [prog, src, dst] w).trace[3]? =
            some (Event.write STDOUT_FILENO prompt_msg q))) := by
  rw [main_after_probe prog src dst w s p rest hop hs]
  constructor
  · intro hp
    have hp' : ¬ 0 ≤ p := by omega
    simp only [hp', if_false]
    refine ⟨_, rfl, ?_, ?_, ?_, ?_⟩
    · intro d ds hrest
      obtain ⟨tl, htl, -⟩ := main_copy_events s dst { w with opens := rest } d ds hrest
      rw [htl]; rfl
    · intro hrest
      exact (main_copy_nil s dst { w with opens := rest } hrest).1
    · intro fd n res hm
      simp only [List.mem_append, List.mem_cons, List.mem_singleton, reduceCtorEq,
        false_or, List.not_mem_nil] at hm
      cases hrest : rest with
      | nil =>
        rw [(main_copy_nil s dst { w with opens := rest } hrest).1] at hm
        simp at hm
      | cons d ds =>
        obtain ⟨tl, htl, hev⟩ := main_copy_events s dst { w with opens := rest } d ds hrest
        rw [htl] at hm
        simp only [List.mem_cons, reduceCtorEq, false_or] at hm
        rcases hev _ hm with (⟨r1, h1⟩ | ⟨p1, q1, h1⟩ | ⟨p1, q1, h1⟩) | h1 | h1
        · cases h1; exact ⟨rfl, rfl⟩
        all_goals cases h1
    · intro fd pl q hm
      simp only [List.mem_append, List.mem_cons, List.mem_singleton, reduceCtorEq,
        false_or, List.not_mem_nil] at hm
      cases hrest : rest with
      | nil =>
        rw [(main_copy_nil s dst { w with opens := rest } hrest).1] at hm
        simp at hm
      | cons d ds =>
        obtain ⟨tl, htl, hev⟩ := main_copy_events s dst { w with opens := rest } d ds hrest
        rw [htl] at hm
        simp only [List.mem_cons, reduceCtorEq, false_or] at hm
        rcases hev _ hm with (⟨r1, h1⟩ | ⟨p1, q1, h1⟩ | ⟨p1, q1, h1⟩) | h1 | h1
        · cases h1
        · cases h1; right; rfl
        · cases h1; left; rfl
        all_goals cases h1
  · intro hp
    simp only [hp, if_true]
    set w2 : World := { w with opens := rest } with hw2
    obtain ⟨hhead, hblocked⟩ := ask_overwrite_loop_head (w2.reads STDIN_FILENO) w2
    have hsplit : ∃ tl2, ((ask_overwrite dst w2).andThen fun ans w3 =>
          if ans = 0 then
            (write_str STDOUT_FILENO cancel_msg w3).andThen fun _ w4 =>
              (sys_close s w4).andThen fun _ w5 => Run.done 0 w5
          else main_copy s dst w3).trace = (ask_overwrite dst w2).trace ++ tl2 ∧
        ((ask_overwrite dst w2).ret = none → tl2 = []) := by
      cases ha : (ask_overwrite dst w2).ret with
      | none => rw [andThen_none _ _ ha]; exact ⟨[], by simp, fun _ => rfl⟩
      | some a => rw [andThen_some _ _ a ha]; exact ⟨_, rfl, fun h => by simp at h⟩
    obtain ⟨tl2, htl2, hnone⟩ := hsplit
    have h1 : ∀ q ws, w.writes STDOUT_FILENO = q :: ws →
        ((ask_overwrite dst w2).andThen fun ans w3 =>
          if ans = 0 then
            (write_str STDOUT_FILENO cancel_msg w3).andThen fun _ w4 =>
              (sys_close s w4).andThen fun _ w5 => Run.done 0 w5
          else main_copy s dst w3).trace.head? =
          some (Event.write STDOUT_FILENO prompt_msg q) := by
      intro q ws hw
      rw [htl2]
      exact head?_append_some _ _ _ (hhead q ws hw)
    have h2 : w.writes STDOUT_FILENO = [] →
        ((ask_overwrite dst w2).andThen fun ans w3 =>
          if ans = 0 then
            (write_str STDOUT_FILENO cancel_msg w3).andThen fun _ w4 =>
              (sys_close s w4).andThen fun _ w5 => Run.done 0 w5
          else main_copy s dst w3).trace = [] := by
      intro hw
      obtain ⟨b1, b2⟩ := hblocked hw
      have b2' : (ask_overwrite dst w2).trace = [] := b2
      rw [htl2, b2', hnone b1]; rfl
    refine ⟨_, rfl, h1, h2, ?_⟩
    intro i path d hi
    cases hw : w.writes STDOUT_FILENO with
    | nil =>
      rw [h2 hw] at hi
      rcases i with _ | _ | _ | i <;> simp at hi
    | cons q ws =>
      obtain ⟨tl3, htl3⟩ := head?_some_cons _ _ (h1 q ws hw)
      rw [htl3] at hi ⊢
      rcases i with _ | _ | _ | _ | i
      · simp at hi
      · simp at hi
      · simp at hi
      · simp at hi
      · exact ⟨by omega, q, by simp⟩

/-- Witness for C9: the probe fails and the create/truncate `open` follows at once. -/
theorem C9_witness :
    ∃ tl, (main ["my_copy", "a", "b"] world_fresh).trace =
      [Event.open_ "a" OpenFlags.O_RDONLY 3, Event.open_ "b" OpenFlags.O_RDONLY (-1)] ++ tl ∧
      tl.head? = some (Event.open_ "b" OpenFlags.O_WRONLY_CREAT_TRUNC 4) := by
  obtain ⟨tl, h1, h2, -⟩ :=
    (C9_prompt_iff_probe "my_copy" "a" "b" world_fresh 3 (-1) [4] (by decide) (by decide)).1
      (by decide)
  exact ⟨tl, h1, h2 4 [] rfl⟩

/-- C10: the source and destination arguments name the same existing file (by
the same path or by different ones), the three `open` calls succeed, and the
user answers `y` or `Y` (after any characters that are no answers); the results
of the calls are those of a file system `fs0` in which both paths name the file
`i`, whatever its content.  Standard output answers the `write` calls without
ever answering `0`, and the kernel answers the first `read` of the source
without an error.  Then the run of `main` is: the read-only `open` of the
source, the probe and its `close`, the dialogue, the create/truncate `open`,
one `read` of the source that returns `0`, and the two `close` calls.  The file
is emptied after the source is opened and before anything is read from it, no
`write` follows the truncation, `main` returns `0` and the file is left
empty. -/
theorem C10_same_file_emptied (prog src dst : String) (w : World) (fs0 fs1 : FS)
    (i : Nat) (s p d : Int) (rest : List Int) (cs : List Char) (a : Char)
    (more : List ReadRes) (r0 : ReadRes) (rs0 : List ReadRes)
    (hsrc_name : fs0.names src = some i) (hdst_name : fs0.names dst = some i)
    (hop : w.opens = s :: p :: d :: rest) (hs : 0 ≤ s) (hp : 0 ≤ p) (hd : 0 ≤ d)
    (hcs : ∀ c ∈ cs, c ≠ 'y' ∧ c ≠ 'Y' ∧ c ≠ 'n' ∧ c ≠ 'N')
    (ha : a = 'y' ∨ a = 'Y')
    (hin : w.reads STDIN_FILENO =
      cs.map (fun c => ReadRes.data [c]) ++ ReadRes.data [a] :: more)
    (hout : Live (w.writes STDOUT_FILENO)
      ((cs.length + 1) * prompt_msg.length + cs.length * invalid_msg.length))
    (hsrc : (if s = STDIN_FILENO then more else w.reads s) = r0 :: rs0)
    (hr0 : r0 ≠ ReadRes.fail)
    (hcons : replay fs0 (main [prog, src, dst] w).trace = some fs1) :
    ∃ ask, (∀ e ∈ ask, AskEv e) ∧
      (main [prog, src, dst] w).trace =
        [Event.open_ src OpenFlags.O_RDONLY s, Event.open_ dst OpenFlags.O_RDONLY p,
          Event.close p] ++ ask ++
        [Event.open_ dst OpenFlags.O_WRONLY_CREAT_TRUNC d,
          Event.read s BUF_SIZE (ReadRes.data []), Event.close s, Event.close d] ∧
      r0 = ReadRes.data [] ∧
      (main [prog, src, dst] w).ret = some 0 ∧
      fs1.content i = [] ∧ fs1.names = fs0.names := by
  rw [prompt_msg_length, invalid_msg_length] at hout
  have hjunk : ∀ j ∈ cs.map (fun c => ReadRes.data [c]), decision j = none := by
    intro j hj
    obtain ⟨c, hc, rfl⟩ := List.mem_map.mp hj
    exact decision_invalid_char c (hcs c hc)
  set w2 : World := { w with opens := d :: rest } with hw2
  obtain ⟨a1, -, -, -, a5, a6, -, -, a9, a10, -⟩ :=
    ask_overwrite_loop_run (ReadRes.data [a]) 1 (decision_yes a ha) more
      (cs.map (fun c => ReadRes.data [c])) w2 _ (ask_overwrite dst w2)
      (by unfold ask_overwrite; rw [← hin]) hjunk hout
      (by simp only [List.length_map]; omega)
  have a6' : (ask_overwrite dst w2).world.opens = d :: rest := a6
  set w5 : World := { (ask_overwrite dst w2).world with opens := rest } with hw5
  have hreads : w5.reads s = r0 :: rs0 := by
    have h5 : w5.reads s = (ask_overwrite dst w2).world.reads s := rfl
    by_cases hsin : s = STDIN_FILENO
    · rw [if_pos hsin] at hsrc
      rw [h5, hsin, a5]; exact hsrc
    · rw [if_neg hsin] at hsrc
      rw [h5, a9 s hsin]; exact hsrc
  have hcf : copy_file s d w5 = copy_file_loop s d (r0 :: rs0) w5 := by
    unfold copy_file; rw [hreads]
  -- the run, up to what `copy_file` does
  have hmain : main [prog, src, dst] w =
      { ret := ((copy_file s d w5).andThen fun res w2 =>
            if res < 0 then
              (sys_close s w2).andThen fun _ w3 =>
                (sys_close d w3).andThen fun _ w4 => Run.done (1 : Int) w4
            else
              (sys_close s w2).andThen fun _ w3 =>
                (sys_close d w3).andThen fun _ w4 => Run.done (0 : Int) w4).ret,
        trace := [Event.open_ src OpenFlags.O_RDONLY s,
            Event.open_ dst OpenFlags.O_RDONLY p, Event.close p] ++
          ((ask_overwrite dst w2).trace ++
            Event.open_ dst OpenFlags.O_WRONLY_CREAT_TRUNC d ::
              ((copy_file s d w5).andThen fun res w2 =>
                if res < 0 then
                  (sys_close s w2).andThen fun _ w3 =>
                    (sys_close d w3).andThen fun _ w4 => Run.done (1 : Int) w4
                else
                  (sys_close s w2).andThen fun _ w3 =>
                    (sys_close d w3).andThen fun _ w4 => Run.done (0 : Int) w4).trace),
        world := ((copy_file s d w5).andThen fun res w2 =>
            if res < 0 then
              (sys_close s w2).andThen fun _ w3 =>
                (sys_close d w3).andThen fun _ w4 => Run.done (1 : Int) w4
            else
              (sys_close s w2).andThen fun _ w3 =>
                (sys_close d w3).andThen fun _ w4 => Run.done (0 : Int) w4).world } := by
    rw [main_after_probe prog src dst w s p (d :: rest) hop hs]
    simp only [hp, if_true]
    rw [andThen_some _ _ 1 a1]
    simp only [one_ne_zero, if_false]
    rw [main_copy_opened s dst (ask_overwrite dst w2).world d rest a6' hd]
  -- the first call of `copy_file` is a `read` of the source
  obtain ⟨tl1, htl1⟩ := copy_file_loop_first s d r0 rs0 w5
  obtain ⟨tl2, htl2⟩ := andThen_trace_split (copy_file_loop s d (r0 :: rs0) w5) (fun res w2 =>
    if res < 0 then
      (sys_close s w2).andThen fun _ w3 =>
        (sys_close d w3).andThen fun _ w4 => Run.done (1 : Int) w4
    else
      (sys_close s w2).andThen fun _ w3 =>
        (sys_close d w3).andThen fun _ w4 => Run.done (0 : Int) w4)
  have hcons1 : replay fs0
      (Event.open_ src OpenFlags.O_RDONLY s :: Event.open_ dst OpenFlags.O_RDONLY p ::
        Event.close p :: ((ask_overwrite dst w2).trace ++
          Event.open_ dst OpenFlags.O_WRONLY_CREAT_TRUNC d ::
            Event.read s BUF_SIZE r0 :: (tl1 ++ tl2))) = some fs1 := by
    rw [hmain] at hcons
    simp only [hcf, htl2, htl1] at hcons
    simpa using hcons
  -- the file system along these calls
  obtain ⟨f1, hf1, hcons2⟩ := replay_cons_some _ _ _ _ hcons1
  obtain ⟨-, b1, -, i1, b2, b3⟩ := step_open_rdonly fs0 f1 src s hs hf1
  have hi1 : i1 = i := by
    rw [hsrc_name] at b2
    exact (Option.some.inj b2).symm
  subst hi1
  obtain ⟨f2, hf2, hcons3⟩ := replay_cons_some _ _ _ _ hcons2
  obtain ⟨c1, c2, -, i2, -, c3⟩ := step_open_rdonly f1 f2 dst p hp hf2
  have hps : p ≠ s := by
    intro hps
    rw [hps, b3] at c1
    simp at c1
  obtain ⟨f3, hf3, hcons4⟩ := replay_cons_some _ _ _ _ hcons3
  obtain ⟨d1, -, d2⟩ := step_close f2 f3 p hf3
  have hf3s : ∃ o, f3.fds s = some (i1, o, OpenFlags.O_RDONLY) := by
    refine ⟨0, ?_⟩
    rw [d2, Function.update_noteq hps.symm, c3, Function.update_noteq hps.symm, b3,
      Function.update_same]
  obtain ⟨f4, hf4, hcons5⟩ := replay_append_some _ _ _ _ hcons4
  obtain ⟨n4, o4, hf4s⟩ := replay_ask_keeps s i1 _ f3 f4 a10 hf3s hf4
  have hnames4 : f4.names = fs0.names := by rw [n4, d1, c2, b1]
  obtain ⟨f5, hf5, hcons6⟩ := replay_cons_some _ _ _ _ hcons5
  obtain ⟨e1, e2, e3, e4⟩ := step_open_creat f4 f5 dst d i1 hd
    (by rw [hnames4]; exact hdst_name) hf5
  have hds : s ≠ d := by
    intro hsd
    rw [← hsd, hf4s] at e1
    cases e1
  have hf5s : f5.fds s = some (i1, o4, OpenFlags.O_RDONLY) := by
    rw [e4, Function.update_noteq hds]; exact hf4s
  have hf5file : f5.content i1 = [] := by
    rw [e3, Function.update_same]
  obtain ⟨f6, hf6, hcons7⟩ := replay_cons_some _ _ _ _ hcons6
  obtain ⟨g1, g2, g3⟩ := step_read_empty f5 f6 s i1 o4 BUF_SIZE r0 hf5s hf5file hr0 hf6
  subst g1
  -- the source is at its end: `copy_file` returns `0`
  have hcf0 : copy_file s d w5 =
      { ret := some 0, trace := [Event.read s BUF_SIZE (ReadRes.data [])],
        world := { w5 with reads := Function.update w5.reads s rs0 } } := by
    rw [hcf, copy_file_loop_eof]
  have htrace : (main [prog, src, dst] w).trace =
      [Event.open_ src OpenFlags.O_RDONLY s, Event.open_ dst OpenFlags.O_RDONLY p,
        Event.close p] ++ (ask_overwrite dst w2).trace ++
      [Event.open_ dst OpenFlags.O_WRONLY_CREAT_TRUNC d,
        Event.read s BUF_SIZE (ReadRes.data []), Event.close s, Event.close d] := by
    rw [hmain, hcf0]
    simp [Run.andThen, sys_close, Run.done]
  have hret : (main [prog, src, dst] w).ret = some 0 := by
    rw [hmain, hcf0]
    simp [Run.andThen, sys_close, Run.done]
  refine ⟨(ask_overwrite dst w2).trace, a10, htrace, rfl, hret, ?_⟩
  -- the file at the end
  have hcons8 : replay fs0
      ([Event.open_ src OpenFlags.O_RDONLY s, Event.open_ dst OpenFlags.O_RDONLY p,
        Event.close p] ++ (ask_overwrite dst w2).trace ++
      [Event.open_ dst OpenFlags.O_WRONLY_CREAT_TRUNC d,
        Event.read s BUF_SIZE (ReadRes.data []), Event.close s, Event.close d]) = some fs1 := by
    rw [← htrace]; exact hcons
  obtain ⟨k1, hk1, hk2⟩ := replay_append_some _ _ _ _ hcons8
  have hk1' : replay fs0 (Event.open_ src OpenFlags.O_RDONLY s ::
      Event.open_ dst OpenFlags.O_RDONLY p :: Event.close p ::
        (ask_overwrite dst w2).trace) = some k1 := by
    simpa using hk1
  obtain ⟨f1', hf1', hk3⟩ := replay_cons_some _ _ _ _ hk1'
  rw [hf1] at hf1'; cases hf1'
  obtain ⟨f2', hf2', hk4⟩ := replay_cons_some _ _ _ _ hk3
  rw [hf2] at hf2'; cases hf2'
  obtain ⟨f3', hf3', hk5⟩ := replay_cons_some _ _ _ _ hk4
  rw [hf3] at hf3'; cases hf3'
  rw [hf4] at hk5; cases hk5
  obtain ⟨f5', hf5', hk6⟩ := replay_cons_some _ _ _ _ hk2
  rw [hf5] at hf5'; cases hf5'
  obtain ⟨f6', hf6', hk7⟩ := replay_cons_some _ _ _ _ hk6
  rw [hf6] at hf6'; cases hf6'
  obtain ⟨f7, hf7, hk8⟩ := replay_cons_some _ _ _ _ hk7
  obtain ⟨f8, hf8, hk9⟩ := replay_cons_some _ _ _ _ hk8
  simp only [replay, Option.some.injEq] at hk9
  obtain ⟨m1, m2, -⟩ := step_close f6 f7 s hf7
  obtain ⟨m3, m4, -⟩ := step_close f7 f8 d hf8
  constructor
  · rw [← hk9, m4, m2, g2]
    exact hf5file
  · rw [← hk9, m3, m1, g3, e2, hnames4]

/-- Witness for C10: a file of content `ab` copied onto itself under the two
names `f` and `./f`. -/
theorem C10_witness :
    ∃ fs1, replay fs_same (main ["my_copy", "f", "./f"] world_same).trace = some fs1 ∧
      (main ["my_copy", "f", "./f"] world_same).ret = some 0 ∧ fs1.content 0 = [] := by
  obtain ⟨fs1, h⟩ := Option.isSome_iff_exists.mp
    (show (replay fs_same (main ["my_copy", "f", "./f"] world_same).trace).isSome = true from by
      decide)
  obtain ⟨ask, -, -, -, h3, h4, -⟩ :=
    C10_same_file_emptied "my_copy" "f" "./f" world_same fs_same fs1 0 3 4 4 [] [] 'y' []
      (ReadRes.data []) []
      (by decide) (by decide) (by decide) (by decide) (by decide) (by decide) (by decide)
      (by decide) (by decide) (live_replicate 108 _ 108 (by decide) (by decide))
      (by decide) (by decide) h
  exact ⟨fs1, h, h3, h4⟩

end MyCopy
